import Mathlib

/-!
Shallow embedding of `src/ml1_mnist/gp/_gp.py` (class `GPClassifier`) over
the real numbers.  Floating-point arithmetic is idealised as real
arithmetic, so the analytic primitives (`Real.sqrt`, `Real.exp`,
`Real.log`) make the definitions `noncomputable`; concrete evaluations in
the theorems are carried out symbolically.  Sample and class counts are
embedded as `n+1` and `C+1`: the code only ever runs with at least one
sample and one class.

External collaborators are embedded as follows: the kernel is represented
by the Gram matrices it returns (`KX`, `kstar`, `kss`); the seeded random
generator of the predictive step is an abstract sampling function `rng`;
`scipy.sparse.linalg.cg` is an abstract solver argument `cgS`.
`scipy.linalg.cholesky(·, lower=True)` and `scipy.linalg.solve_triangular`
are embedded by their documented semantics; note that the source calls
`solve_triangular` without `lower=True`, and the scipy default is
`lower=False` (the routine then reads only the upper triangle of its first
argument).
-/

noncomputable section

namespace GP

/-- The constant `1e-8` used as an elementwise floor for denominators in
`_fit` (line 219) and in `_predict_k_star` (line 250). -/
def eps : ℝ := 1e-8

/-- `np.maximum(s, 1e-8)`: the floor guard shared by the Newton update
(line 219) and the predictive engine (line 250). -/
def floorDenom (s : ℝ) : ℝ := max s eps

/-- Maximum entry of a row: `max(x)` in `log_sum_exp`, and the row maximum
subtracted by the stable softmax. -/
def rowMax {C : ℕ} (v : Fin (C + 1) → ℝ) : ℝ :=
  Finset.univ.sup' ⟨0, Finset.mem_univ 0⟩ v

/-- Modelled from the spec: `nn.activations.softmax` is repository code that
is not included under `src/`; spec §4.2/§6 describe it as a numerically
stable row-wise softmax that subtracts the row maximum before
exponentiating. -/
def softmaxRow {C : ℕ} (v : Fin (C + 1) → ℝ) : Fin (C + 1) → ℝ :=
  fun c => Real.exp (v c - rowMax v) / ∑ c', Real.exp (v c' - rowMax v)

/-- Row-wise softmax of a matrix (spec §4.2 step 1). -/
def softmax {n C : ℕ} (f : Fin (n + 1) → Fin (C + 1) → ℝ) :
    Fin (n + 1) → Fin (C + 1) → ℝ :=
  fun i => softmaxRow (f i)

/-- `log_sum_exp` from `_gp.py` lines 12-29. -/
def log_sum_exp {C : ℕ} (x : Fin (C + 1) → ℝ) : ℝ :=
  rowMax x + Real.log (∑ c, Real.exp (x c - rowMax x))

/-- Matrix-vector product `M.dot(v)`. -/
def matVec {n : ℕ} (M : Fin n → Fin n → ℝ) (v : Fin n → ℝ) : Fin n → ℝ :=
  fun i => ∑ j, M i j * v j

/-- Entry `L[i, column j]` of the lower Cholesky factor computed by
`scipy.linalg.cholesky(·, lower=True)` (line 197): the standard
column-by-column recurrence of LAPACK `potrf`, with the strict upper
triangle cleaned to zero.  Out-of-range column indices give `0`. -/
def cholCol {n : ℕ} (A : Fin n → Fin n → ℝ) : ℕ → Fin n → ℝ
  | j, i =>
    if hj : j < n then
      if i.val < j then 0
      else if i.val = j then
        Real.sqrt (A ⟨j, hj⟩ ⟨j, hj⟩ -
          ∑ k ∈ (Finset.range j).attach, (cholCol A k.1 ⟨j, hj⟩) ^ 2)
      else
        (A i ⟨j, hj⟩ -
            ∑ k ∈ (Finset.range j).attach, cholCol A k.1 i * cholCol A k.1 ⟨j, hj⟩) /
          Real.sqrt (A ⟨j, hj⟩ ⟨j, hj⟩ -
            ∑ k ∈ (Finset.range j).attach, (cholCol A k.1 ⟨j, hj⟩) ^ 2)
    else 0
  termination_by j _ => j
  decreasing_by
    all_goals exact Finset.mem_range.mp k.2

/-- The lower Cholesky factor `L` of `scipy.linalg.cholesky(·, lower=True)`. -/
def chol {n : ℕ} (A : Fin n → Fin n → ℝ) : Fin n → Fin n → ℝ :=
  fun i j => cholCol A j.val i

/-- The `j`-th pivot of the factorisation.  LAPACK `potrf`, and hence
`scipy.linalg.cholesky`, fails (raising `LinAlgError`, the spec's
`NumericalError`) iff some pivot is not positive. -/
def cholPiv {n : ℕ} (A : Fin n → Fin n → ℝ) (j : Fin n) : ℝ :=
  A j j - ∑ k ∈ (Finset.range j.val).attach, (cholCol A k.1 j) ^ 2

/-- Success of the Cholesky factorisation: every pivot is positive. -/
def cholOk {n : ℕ} (A : Fin n → Fin n → ℝ) : Prop :=
  ∀ j, 0 < cholPiv A j

instance cholOkDec {n : ℕ} (A : Fin n → Fin n → ℝ) : Decidable (cholOk A) :=
  inferInstanceAs (Decidable (∀ j, 0 < cholPiv A j))

/-- `scipy.linalg.solve_triangular(a, b)` with the library defaults
`lower=False`, `trans=0`: backward substitution reading only the upper
triangle (diagonal included) of `a`.  `solveUBAux A b m` is the component
of the solution at row `n - 1 - m` (counting from the bottom row). -/
def solveUBAux {n : ℕ} (A : Fin n → Fin n → ℝ) (b : Fin n → ℝ) : ℕ → ℝ
  | m =>
    if h : m < n then
      (b ⟨n - 1 - m, by omega⟩ -
          ∑ k ∈ (Finset.range m).attach,
            A ⟨n - 1 - m, by omega⟩ ⟨n - 1 - k.1, by omega⟩ * solveUBAux A b k.1) /
        A ⟨n - 1 - m, by omega⟩ ⟨n - 1 - m, by omega⟩
    else 0
  termination_by m => m
  decreasing_by
    exact Finset.mem_range.mp k.2

/-- The solution of `solve_triangular(a, b)` (defaults: upper triangle). -/
def solveUpper {n : ℕ} (A : Fin n → Fin n → ℝ) (b : Fin n → ℝ) : Fin n → ℝ :=
  fun i => solveUBAux A b (n - 1 - i.val)

/-- `scipy.linalg.solve_triangular(a, b, trans='T')` with the default
`lower=False`: forward substitution with the transpose of the upper
triangle of `a`. -/
def solveUTAux {n : ℕ} (A : Fin n → Fin n → ℝ) (b : Fin n → ℝ) : ℕ → ℝ
  | j =>
    if h : j < n then
      (b ⟨j, h⟩ -
          ∑ k ∈ (Finset.range j).attach,
            A ⟨k.1, lt_trans (Finset.mem_range.mp k.2) h⟩ ⟨j, h⟩ * solveUTAux A b k.1) /
        A ⟨j, h⟩ ⟨j, h⟩
    else 0
  termination_by j => j
  decreasing_by
    exact Finset.mem_range.mp k.2

/-- The solution of `solve_triangular(a, b, trans='T')`. -/
def solveUpperTrans {n : ℕ} (A : Fin n → Fin n → ℝ) (b : Fin n → ℝ) : Fin n → ℝ :=
  fun i => solveUTAux A b i.val

/-- The two `solve_triangular` calls of the exact path (lines 198-199),
applied to the Cholesky factor of `T`: first `trans=0`, then `trans='T'`. -/
def exactSolveVec {n : ℕ} (T : Fin n → Fin n → ℝ) (d : Fin n → ℝ) : Fin n → ℝ :=
  solveUpperTrans (chol T) (solveUpper (chol T) d)

/-- `sqrt_d_c = np.sqrt(pi[:, c])` (line 194). -/
def sqrtdOf {n C : ℕ} (pi : Fin n → Fin C → ℝ) (c : Fin C) : Fin n → ℝ :=
  fun i => Real.sqrt (pi i c)

/-- `_T = np.eye(n) + (sqrt_d_c * K.T).T * sqrt_d_c` (line 195):
`I + diag(sqrt_d) · K · diag(sqrt_d)`. -/
def TcOf {n : ℕ} (K : Fin n → Fin n → ℝ) (sq : Fin n → ℝ) : Fin n → Fin n → ℝ :=
  fun i j => (if i = j then 1 else 0) + sq i * K i j * sq j

/-- The exact-mode per-class correction vector
`e_c = sqrt_d_c * solve_triangular(L, solve_triangular(L, sqrt_d_c), trans='T')`
(lines 197-199). -/
def exactE {n C : ℕ} (K : Fin n → Fin n → ℝ) (pi : Fin n → Fin C → ℝ) (c : Fin C) :
    Fin n → ℝ :=
  fun i => sqrtdOf pi c i *
    exactSolveVec (TcOf K (sqrtdOf pi c)) (sqrtdOf pi c) i

/-- `sum(z)` over the classes: `z_c = sum(log(L.diagonal()))` (line 206),
accumulated only in exact mode. -/
def zOf {n C : ℕ} (K : Fin n → Fin n → ℝ) (pi : Fin n → Fin C → ℝ) : ℝ :=
  ∑ c : Fin C, ∑ i, Real.log (chol (TcOf K (sqrtdOf pi c)) i i)

/-- Failures the fitting engine can raise. -/
inductive GPErr where
  /-- `scipy.linalg.LinAlgError` from a non-positive-definite Cholesky. -/
  | numericalError : GPErr
  /-- Python `UnboundLocalError`: for an unknown algorithm string neither
  branch of lines 196-202 assigns `e_c`, and line 203 reads it. -/
  | unboundLocal : GPErr
deriving DecidableEq

/-- The per-class linear-solve phase of one Newton iteration (lines
190-207).  Exact mode Cholesky-factorises each `T_c` (failing when a pivot
is not positive) and accumulates the `z_c`; cg mode calls the external
iterative solver `cgS` and produces no determinant term; any other
algorithm string crashes with an unbound-local error at `append`. -/
def solveAll {n C : ℕ} (alg : String)
    (cgS : (Fin n → Fin n → ℝ) → (Fin n → ℝ) → (Fin n → ℝ))
    (K : Fin n → Fin n → ℝ) (pi : Fin n → Fin C → ℝ) :
    Except GPErr ((Fin C → Fin n → ℝ) × ℝ) :=
  if alg = "exact" then
    if _h : ∀ c, cholOk (TcOf K (sqrtdOf pi c)) then
      .ok (fun c => exactE K pi c, zOf K pi)
    else .error .numericalError
  else if alg = "cg" then
    .ok (fun c i => sqrtdOf pi c i * cgS (TcOf K (sqrtdOf pi c)) (sqrtdOf pi c) i, 0)
  else .error .unboundLocal

/-- The flat index `i*(C+1) + c` used by `b.reshape((n, C))` stays below
`(n+1)*(C+1)`. -/
lemma flatIdx_lt {n C : ℕ} (i : Fin (n + 1)) (c : Fin (C + 1)) :
    i.val * (C + 1) + c.val < (n + 1) * (C + 1) := by
  calc i.val * (C + 1) + c.val < i.val * (C + 1) + (C + 1) := by omega
    _ = (i.val + 1) * (C + 1) := by ring
    _ ≤ (n + 1) * (C + 1) := Nat.mul_le_mul_right _ i.isLt

/-- The vector `b` of one Newton step (lines 209-211):
`b = ((D - Π·Πᵀ) · f.T.reshape(C·n)).reshape((n, C)) + y - pi`.
The flattened product is laid out class-major (flat position `c·n + i`
holds the value for class `c`, row `i`), but `reshape((n, C))` reads it
row-major, so entry `(i, c)` of `b` reads flat position `i·C + c`, i.e.
class `(i·C + c) div n` and row `(i·C + c) mod n` of the product. -/
def bMat {n C : ℕ} (pi f y : Fin (n + 1) → Fin (C + 1) → ℝ) :
    Fin (n + 1) → Fin (C + 1) → ℝ :=
  fun i c =>
    let idx := i.val * (C + 1) + c.val
    let i2 : Fin (n + 1) := ⟨idx % (n + 1), Nat.mod_lt _ (Nat.succ_pos n)⟩
    let c2 : Fin (C + 1) := ⟨idx / (n + 1),
      (Nat.div_lt_iff_lt_mul (Nat.succ_pos n)).2
        (by rw [Nat.mul_comm]; exact flatIdx_lt i c)⟩
    pi i2 c2 * (f i2 c2 - ∑ c', pi i2 c' * f i2 c') + y i c - pi i c

/-- `c[:, c] = e_c * K.dot(b[:, c])` (line 213). -/
def cMat {n C : ℕ} (K : Fin n → Fin n → ℝ) (e : Fin C → Fin n → ℝ)
    (b : Fin n → Fin C → ℝ) : Fin n → Fin C → ℝ :=
  fun i c => e c i * matVec K (fun j => b j c) i

/-- `_t3 = np.sum(c, axis=1) / np.maximum(sum(self._e), 1e-8 * ones)`
(line 219). -/
def t3Of {n C : ℕ} (e : Fin C → Fin n → ℝ) (cc : Fin n → Fin C → ℝ) :
    Fin n → ℝ :=
  fun i => (∑ c, cc i c) / floorDenom (∑ c, e c i)

/-- `_t4[:, c] = e_c * _t3` (line 220). -/
def t4Of {n C : ℕ} (e : Fin C → Fin n → ℝ) (cc : Fin n → Fin C → ℝ) :
    Fin n → Fin C → ℝ :=
  fun i c => e c i * t3Of e cc i

/-- `a = b - c + _t4` (line 221). -/
def aMat {n C : ℕ} (e : Fin C → Fin n → ℝ) (b cc : Fin n → Fin C → ℝ) :
    Fin n → Fin C → ℝ :=
  fun i c => b i c - cc i c + t4Of e cc i c

/-- `f = K.dot(a)` (line 223). -/
def fNew {n C : ℕ} (K : Fin n → Fin n → ℝ) (a : Fin n → Fin C → ℝ) :
    Fin n → Fin C → ℝ :=
  fun i c => matVec K (fun j => a j c) i

/-- The approximate log marginal likelihood of one iteration (lines
225-228). -/
def lmlOf {n C : ℕ} (a f y : Fin (n + 1) → Fin (C + 1) → ℝ) (zsum : ℝ) : ℝ :=
  -(1 / 2) * (∑ c, ∑ i, a i c * f i c) + (∑ c, ∑ i, y i c * f i c)
    - (∑ i, log_sum_exp (fun c => f i c)) - zsum

/-- The matrix `a` of one Newton step, assembled from the solver output
`e'` and the previous iterate `f` (lines 209-221): `pi = softmax(f)`,
`b = bMat`, `c = cMat`, `a = b - c + t4`. -/
def stepA {n C : ℕ} (K : Fin (n + 1) → Fin (n + 1) → ℝ)
    (y : Fin (n + 1) → Fin (C + 1) → ℝ) (e' : Fin (C + 1) → Fin (n + 1) → ℝ)
    (f : Fin (n + 1) → Fin (C + 1) → ℝ) : Fin (n + 1) → Fin (C + 1) → ℝ :=
  let b := bMat (softmax f) f y
  aMat e' b (cMat K e' b)

/-- The new latent matrix of one Newton step: `f = K.dot(a)` (line 223). -/
def stepF {n C : ℕ} (K : Fin (n + 1) → Fin (n + 1) → ℝ)
    (y : Fin (n + 1) → Fin (C + 1) → ℝ) (e' : Fin (C + 1) → Fin (n + 1) → ℝ)
    (f : Fin (n + 1) → Fin (C + 1) → ℝ) : Fin (n + 1) → Fin (C + 1) → ℝ :=
  fNew K (stepA K y e' f)

/-- The `lml` value appended by one Newton step (lines 225-229). -/
def stepLml {n C : ℕ} (K : Fin (n + 1) → Fin (n + 1) → ℝ)
    (y : Fin (n + 1) → Fin (C + 1) → ℝ) (e' : Fin (C + 1) → Fin (n + 1) → ℝ)
    (zsum : ℝ) (f : Fin (n + 1) → Fin (C + 1) → ℝ) : ℝ :=
  lmlOf (stepA K y e' f) (stepF K y e' f) y zsum

/-- The model state `_fit` leaves behind: attributes `K_`, `f_`, `pi_`,
`_e`, `lml_`, plus the loop's `lmls` list (the code only reads its last
two entries and stores its last one; it is kept as the iteration trace). -/
structure FitState (n C : ℕ) where
  K : Fin (n + 1) → Fin (n + 1) → ℝ
  f : Fin (n + 1) → Fin (C + 1) → ℝ
  pi : Fin (n + 1) → Fin (C + 1) → ℝ
  e : Fin (C + 1) → Fin (n + 1) → ℝ
  lmls : List ℝ
  lml : Option ℝ

/-- The `while` loop of `_fit` (lines 180-232), with the remaining
iteration budget as fuel.  Fuel `0` is the `iter > max_iter` exit (lines
182-184): the code prints `'convergence is not reached'` and returns, so
`lml_` keeps its previous value `lml0` and line 232 is skipped.  Each
iteration recomputes `pi`, solves the per-class systems, forms the Newton
update, appends the iteration's `lml`, and breaks when at least two `lml`
values exist and the last two differ by less than `tol` (line 230), then
stores `lmls[-1]` (line 232). -/
def fitIter {n C : ℕ} (alg : String)
    (cgS : (Fin (n + 1) → Fin (n + 1) → ℝ) → (Fin (n + 1) → ℝ) → (Fin (n + 1) → ℝ))
    (tol : ℝ) (K : Fin (n + 1) → Fin (n + 1) → ℝ)
    (y : Fin (n + 1) → Fin (C + 1) → ℝ) :
    ℕ → (Fin (n + 1) → Fin (C + 1) → ℝ) → (Fin (n + 1) → Fin (C + 1) → ℝ) →
      (Fin (C + 1) → Fin (n + 1) → ℝ) → List ℝ → Option ℝ →
      Except GPErr (FitState n C)
  | 0, f, pi, e, lmls, lml0 => .ok ⟨K, f, pi, e, lmls, lml0⟩
  | m + 1, f, _pi, _e, lmls, lml0 =>
    match solveAll alg cgS K (softmax f) with
    | .error err => .error err
    | .ok (e', zsum) =>
      let f' := stepF K y e' f
      let lml := stepLml K y e' zsum f
      match lmls.getLast? with
      | none => fitIter alg cgS tol K y m f' (softmax f) e' (lmls ++ [lml]) lml0
      | some prev =>
        if |lml - prev| < tol then
          .ok ⟨K, f', softmax f, e', lmls ++ [lml], some lml⟩
        else fitIter alg cgS tol K y m f' (softmax f) e' (lmls ++ [lml]) lml0

/-- `fit`: builds `K = kernel(X, X) + sigma_n² I` only when the attribute
`K_` is `None` (lines 172-174), zero-initialises `f` (line 176) and runs
the Newton loop with `max_iter` as the iteration budget.  `KX` is the Gram
matrix `kernel(X, X)` returned by the external kernel collaborator;
`K0`/`lml0` are the `K_`/`lml_` attributes held on entry (`None` on a
fresh model).  The `pi`/`e` attributes do not exist before the first
iteration; they are passed as zero placeholders (a valid configuration has
`max_iter > 0`, so at least one iteration overwrites them). -/
def fit {n C : ℕ} (alg : String) (sigma_n tol : ℝ)
    (cgS : (Fin (n + 1) → Fin (n + 1) → ℝ) → (Fin (n + 1) → ℝ) → (Fin (n + 1) → ℝ))
    (maxIter : ℕ) (KX : Fin (n + 1) → Fin (n + 1) → ℝ)
    (y : Fin (n + 1) → Fin (C + 1) → ℝ)
    (K0 : Option (Fin (n + 1) → Fin (n + 1) → ℝ)) (lml0 : Option ℝ) :
    Except GPErr (FitState n C) :=
  let K := match K0 with
    | some K₀ => K₀
    | none => fun i j => KX i j + sigma_n ^ 2 * (if i = j then 1 else 0)
  fitIter alg cgS tol K y maxIter (fun _ _ => 0) (fun _ _ => 0) (fun _ _ => 0) [] lml0

/-- Predictive mean `mu = (y - pi).T.dot(k_star)` (line 243). -/
def muOf {n C : ℕ} (y pi : Fin n → Fin C → ℝ) (kstar : Fin n → ℝ) : Fin C → ℝ :=
  fun c => ∑ i, (y i c - pi i c) * kstar i

/-- `b = e_c * k_star` (line 247). -/
def predB {n C : ℕ} (e : Fin C → Fin n → ℝ) (c : Fin C) (kstar : Fin n → ℝ) :
    Fin n → ℝ :=
  fun i => e c i * kstar i

/-- `_t2 = b / np.maximum(sum(self._e), 1e-8 * ones)` (line 250): the same
floored elementwise division as in fitting. -/
def predT2 {n C : ℕ} (e : Fin C → Fin n → ℝ) (c : Fin C) (kstar : Fin n → ℝ) :
    Fin n → ℝ :=
  fun i => predB e c kstar i / floorDenom (∑ c', e c' i)

/-- `c = e_c * _t2` (line 251). -/
def predC {n C : ℕ} (e : Fin C → Fin n → ℝ) (c : Fin C) (kstar : Fin n → ℝ) :
    Fin n → ℝ :=
  fun i => e c i * predT2 e c kstar i

/-- The `C × C` matrix `Sigma` (lines 244-255): row `c` is the constant
`c.dot(k_star)` (line 252) with `k_star_star - b.dot(k_star)` added on the
diagonal (line 253). -/
def SigmaOf {n C : ℕ} (e : Fin C → Fin n → ℝ) (kstar : Fin n → ℝ) (kss : ℝ) :
    Fin C → Fin C → ℝ :=
  fun c c' => (∑ i, predC e c kstar i * kstar i) +
    if c' = c then kss - ∑ i, predB e c kstar i * kstar i else 0

/-- `_predict_k_star` (lines 234-258): draw `n_samples` multivariate-normal
samples (the externally seeded generator is the abstract argument `rng`,
called at the computed mean and covariance), softmax each row and average.
`n_samples` is embedded as `m+1`: the configuration requires it positive. -/
def predictKStar {n C m : ℕ} (y pi : Fin (n + 1) → Fin (C + 1) → ℝ)
    (e : Fin (C + 1) → Fin (n + 1) → ℝ) (kstar : Fin (n + 1) → ℝ) (kss : ℝ)
    (rng : (Fin (C + 1) → ℝ) → (Fin (C + 1) → Fin (C + 1) → ℝ) →
      Fin (m + 1) → Fin (C + 1) → ℝ) :
    Fin (C + 1) → ℝ :=
  let fstar := rng (muOf y pi kstar) (SigmaOf e kstar kss)
  fun c => (∑ s, softmaxRow (fstar s) c) / (m + 1 : ℝ)

/-- `predict_proba` (lines 260-264): independent per query row; `kstarOf q`
is row `q` of `kernel(X, X_train)` and `kssOf q = kernel(x_q, x_q)`. -/
def predictProba {n C m q : ℕ} (y pi : Fin (n + 1) → Fin (C + 1) → ℝ)
    (e : Fin (C + 1) → Fin (n + 1) → ℝ)
    (kstarOf : Fin (q + 1) → Fin (n + 1) → ℝ) (kssOf : Fin (q + 1) → ℝ)
    (rng : Fin (q + 1) → (Fin (C + 1) → ℝ) → (Fin (C + 1) → Fin (C + 1) → ℝ) →
      Fin (m + 1) → Fin (C + 1) → ℝ) :
    Fin (q + 1) → Fin (C + 1) → ℝ :=
  fun qi => predictKStar y pi e (kstarOf qi) (kssOf qi) (rng qi)

/-- Projection: the `K_` attribute of a fit outcome (junk on an exception). -/
def stK {n C : ℕ} : Except GPErr (FitState n C) → (Fin (n + 1) → Fin (n + 1) → ℝ)
  | .ok st => st.K
  | .error _ => fun _ _ => 0

/-- Projection: the `f_` attribute of a fit outcome. -/
def stF {n C : ℕ} : Except GPErr (FitState n C) → (Fin (n + 1) → Fin (C + 1) → ℝ)
  | .ok st => st.f
  | .error _ => fun _ _ => 0

/-- Projection: the `pi_` attribute of a fit outcome. -/
def stPi {n C : ℕ} : Except GPErr (FitState n C) → (Fin (n + 1) → Fin (C + 1) → ℝ)
  | .ok st => st.pi
  | .error _ => fun _ _ => 0

/-- Projection: the `_e` attribute of a fit outcome. -/
def stE {n C : ℕ} : Except GPErr (FitState n C) → (Fin (C + 1) → Fin (n + 1) → ℝ)
  | .ok st => st.e
  | .error _ => fun _ _ => 0

/-- Projection: the `lml_` attribute of a fit outcome. -/
def stLml {n C : ℕ} : Except GPErr (FitState n C) → Option ℝ
  | .ok st => st.lml
  | .error _ => none

/-- Projection: the loop's `lmls` trace of a fit outcome. -/
def stLmls {n C : ℕ} : Except GPErr (FitState n C) → List ℝ
  | .ok st => st.lmls
  | .error _ => []

/-- Whether a fit outcome is a normal return (no exception). -/
def isOk {n C : ℕ} : Except GPErr (FitState n C) → Bool
  | .ok _ => true
  | .error _ => false

/-! ### Basic facts about the embedded primitives -/

lemma expSum_pos {C : ℕ} (v : Fin (C + 1) → ℝ) :
    0 < ∑ c', Real.exp (v c' - rowMax v) :=
  Finset.sum_pos (fun _ _ => Real.exp_pos _) ⟨0, Finset.mem_univ 0⟩

lemma softmaxRow_pos {C : ℕ} (v : Fin (C + 1) → ℝ) (c : Fin (C + 1)) :
    0 < softmaxRow v c :=
  div_pos (Real.exp_pos _) (expSum_pos v)

lemma softmaxRow_sum {C : ℕ} (v : Fin (C + 1) → ℝ) :
    ∑ c, softmaxRow v c = 1 := by
  unfold softmaxRow
  rw [← Finset.sum_div]
  exact div_self (ne_of_gt (expSum_pos v))

lemma rowMax_const {C : ℕ} (r : ℝ) : rowMax (fun _ : Fin (C + 1) => r) = r :=
  Finset.sup'_const _ r

lemma softmaxRow_const {C : ℕ} (r : ℝ) (c : Fin (C + 1)) :
    softmaxRow (fun _ => r) c = 1 / (C + 1 : ℝ) := by
  unfold softmaxRow
  rw [rowMax_const]
  simp only [sub_self, Real.exp_zero, Finset.sum_const, Finset.card_univ,
    Fintype.card_fin, nsmul_eq_mul, mul_one]
  push_cast
  ring

lemma softmax_zero {n C : ℕ} :
    softmax (fun _ _ => (0 : ℝ)) = fun (_ : Fin (n + 1)) (_ : Fin (C + 1)) => 1 / (C + 1 : ℝ) := by
  funext i c
  exact softmaxRow_const 0 c

/-- Helper for rewriting a `Fin.mk` whose value is provably the value of a
given index. -/
lemma fin_mk_eq {n : ℕ} (i : Fin n) (a : ℕ) (ha : a = i.val) :
    ∀ h : a < n, (⟨a, h⟩ : Fin n) = i :=
  fun _ => Fin.ext ha

lemma cholCol_eval {n : ℕ} (A : Fin n → Fin n → ℝ) (j : ℕ) (i : Fin n) (hj : j < n) :
    cholCol A j i =
      if i.val < j then 0
      else if i.val = j then
        Real.sqrt (A ⟨j, hj⟩ ⟨j, hj⟩ -
          ∑ k ∈ (Finset.range j).attach, (cholCol A k.1 ⟨j, hj⟩) ^ 2)
      else
        (A i ⟨j, hj⟩ -
            ∑ k ∈ (Finset.range j).attach, cholCol A k.1 i * cholCol A k.1 ⟨j, hj⟩) /
          Real.sqrt (A ⟨j, hj⟩ ⟨j, hj⟩ -
            ∑ k ∈ (Finset.range j).attach, (cholCol A k.1 ⟨j, hj⟩) ^ 2) := by
  rw [cholCol, dif_pos hj]

lemma chol_lower {n : ℕ} (A : Fin n → Fin n → ℝ) (i j : Fin n) (h : i.val < j.val) :
    chol A i j = 0 := by
  unfold chol
  rw [cholCol_eval A j.val i j.isLt, if_pos h]

lemma chol_diag {n : ℕ} (A : Fin n → Fin n → ℝ) (j : Fin n) :
    chol A j j = Real.sqrt (cholPiv A j) := by
  unfold chol cholPiv
  rw [cholCol_eval A j.val j j.isLt, if_neg (lt_irrefl _), if_pos rfl]

lemma chol_below {n : ℕ} (A : Fin n → Fin n → ℝ) (i j : Fin n) (h : j.val < i.val) :
    chol A i j =
      (A i j - ∑ k ∈ (Finset.range j.val).attach, cholCol A k.1 i * cholCol A k.1 j) /
        Real.sqrt (cholPiv A j) := by
  unfold chol cholPiv
  rw [cholCol_eval A j.val i j.isLt, if_neg (by omega), if_neg (by omega)]

lemma solveUBAux_lower {n : ℕ} (A : Fin n → Fin n → ℝ) (b : Fin n → ℝ)
    (hA : ∀ i j : Fin n, i.val < j.val → A i j = 0) (m : ℕ) (h : m < n) :
    solveUBAux A b m =
      b ⟨n - 1 - m, by omega⟩ / A ⟨n - 1 - m, by omega⟩ ⟨n - 1 - m, by omega⟩ := by
  rw [solveUBAux, dif_pos h]
  have hz : (∑ k ∈ (Finset.range m).attach,
      A ⟨n - 1 - m, by omega⟩ ⟨n - 1 - k.1, by omega⟩ * solveUBAux A b k.1) = 0 := by
    refine Finset.sum_eq_zero fun k _ => ?_
    have hk : k.1 < m := Finset.mem_range.mp k.2
    have hz0 : A ⟨n - 1 - m, by omega⟩ ⟨n - 1 - k.1, by omega⟩ = 0 :=
      hA _ _ (by simp only [Fin.val_mk]; omega)
    rw [hz0, zero_mul]
  rw [hz, sub_zero]

lemma solveUpper_lower {n : ℕ} (A : Fin n → Fin n → ℝ) (b : Fin n → ℝ)
    (hA : ∀ i j : Fin n, i.val < j.val → A i j = 0) (i : Fin n) :
    solveUpper A b i = b i / A i i := by
  have hin := i.isLt
  unfold solveUpper
  rw [solveUBAux_lower A b hA (n - 1 - i.val) (by omega)]
  rw [fin_mk_eq i (n - 1 - (n - 1 - i.val)) (by omega)]

lemma solveUTAux_lower {n : ℕ} (A : Fin n → Fin n → ℝ) (b : Fin n → ℝ)
    (hA : ∀ i j : Fin n, i.val < j.val → A i j = 0) (j : ℕ) (h : j < n) :
    solveUTAux A b j = b ⟨j, h⟩ / A ⟨j, h⟩ ⟨j, h⟩ := by
  rw [solveUTAux, dif_pos h]
  have hz : (∑ k ∈ (Finset.range j).attach,
      A ⟨k.1, lt_trans (Finset.mem_range.mp k.2) h⟩ ⟨j, h⟩ * solveUTAux A b k.1) = 0 := by
    refine Finset.sum_eq_zero fun k _ => ?_
    have hk : k.1 < j := Finset.mem_range.mp k.2
    have hz0 : A ⟨k.1, lt_trans (Finset.mem_range.mp k.2) h⟩ ⟨j, h⟩ = 0 :=
      hA _ _ (by simp only [Fin.val_mk]; omega)
    rw [hz0, zero_mul]
  rw [hz, sub_zero]

lemma solveUpperTrans_lower {n : ℕ} (A : Fin n → Fin n → ℝ) (b : Fin n → ℝ)
    (hA : ∀ i j : Fin n, i.val < j.val → A i j = 0) (i : Fin n) :
    solveUpperTrans A b i = b i / A i i := by
  unfold solveUpperTrans
  rw [solveUTAux_lower A b hA i.val i.isLt]

/-- On the (lower-triangular) Cholesky factor, the two `solve_triangular`
calls of the exact path read only the diagonal: the solve collapses to two
elementwise divisions by `diag(L)`. -/
lemma exactSolveVec_eq {n : ℕ} (T : Fin n → Fin n → ℝ) (d : Fin n → ℝ) :
    exactSolveVec T d = fun i => d i / chol T i i / chol T i i := by
  funext i
  unfold exactSolveVec
  rw [solveUpperTrans_lower _ _ (fun a b h => chol_lower T a b h) i,
    solveUpper_lower _ _ (fun a b h => chol_lower T a b h) i]

/-! ### Step equations and invariants of the Newton loop -/

lemma fitIter_zero {n C : ℕ} (alg : String)
    (cgS : (Fin (n + 1) → Fin (n + 1) → ℝ) → (Fin (n + 1) → ℝ) → (Fin (n + 1) → ℝ))
    (tol : ℝ) (K : Fin (n + 1) → Fin (n + 1) → ℝ) (y f pi : Fin (n + 1) → Fin (C + 1) → ℝ)
    (e : Fin (C + 1) → Fin (n + 1) → ℝ) (lmls : List ℝ) (lml0 : Option ℝ) :
    fitIter alg cgS tol K y 0 f pi e lmls lml0 = .ok ⟨K, f, pi, e, lmls, lml0⟩ := rfl

lemma fitIter_err {n C : ℕ} {alg : String}
    {cgS : (Fin (n + 1) → Fin (n + 1) → ℝ) → (Fin (n + 1) → ℝ) → (Fin (n + 1) → ℝ)}
    {tol : ℝ} {K : Fin (n + 1) → Fin (n + 1) → ℝ} {y f : Fin (n + 1) → Fin (C + 1) → ℝ}
    {err : GPErr} (m : ℕ) (pi : Fin (n + 1) → Fin (C + 1) → ℝ)
    (e : Fin (C + 1) → Fin (n + 1) → ℝ) (lmls : List ℝ) (lml0 : Option ℝ)
    (hsolve : solveAll alg cgS K (softmax f) = .error err) :
    fitIter alg cgS tol K y (m + 1) f pi e lmls lml0 = .error err := by
  simp only [fitIter, hsolve]

lemma fitIter_step_cont {n C : ℕ} {alg : String}
    {cgS : (Fin (n + 1) → Fin (n + 1) → ℝ) → (Fin (n + 1) → ℝ) → (Fin (n + 1) → ℝ)}
    {tol : ℝ} {K : Fin (n + 1) → Fin (n + 1) → ℝ} {y f : Fin (n + 1) → Fin (C + 1) → ℝ}
    {e' : Fin (C + 1) → Fin (n + 1) → ℝ} {zsum : ℝ} (m : ℕ)
    (pi : Fin (n + 1) → Fin (C + 1) → ℝ) (e : Fin (C + 1) → Fin (n + 1) → ℝ)
    (lmls : List ℝ) (lml0 : Option ℝ)
    (hsolve : solveAll alg cgS K (softmax f) = .ok (e', zsum))
    (hlast : lmls.getLast? = none) :
    fitIter alg cgS tol K y (m + 1) f pi e lmls lml0 =
      fitIter alg cgS tol K y m (stepF K y e' f) (softmax f) e'
        (lmls ++ [stepLml K y e' zsum f]) lml0 := by
  simp only [fitIter, hsolve, hlast]

lemma fitIter_step_last {n C : ℕ} {alg : String}
    {cgS : (Fin (n + 1) → Fin (n + 1) → ℝ) → (Fin (n + 1) → ℝ) → (Fin (n + 1) → ℝ)}
    {tol : ℝ} {K : Fin (n + 1) → Fin (n + 1) → ℝ} {y f : Fin (n + 1) → Fin (C + 1) → ℝ}
    {e' : Fin (C + 1) → Fin (n + 1) → ℝ} {zsum : ℝ} {prev : ℝ} (m : ℕ)
    (pi : Fin (n + 1) → Fin (C + 1) → ℝ) (e : Fin (C + 1) → Fin (n + 1) → ℝ)
    (lmls : List ℝ) (lml0 : Option ℝ)
    (hsolve : solveAll alg cgS K (softmax f) = .ok (e', zsum))
    (hlast : lmls.getLast? = some prev) :
    fitIter alg cgS tol K y (m + 1) f pi e lmls lml0 =
      if |stepLml K y e' zsum f - prev| < tol then
        .ok ⟨K, stepF K y e' f, softmax f, e', lmls ++ [stepLml K y e' zsum f],
          some (stepLml K y e' zsum f)⟩
      else
        fitIter alg cgS tol K y m (stepF K y e' f) (softmax f) e'
          (lmls ++ [stepLml K y e' zsum f]) lml0 := by
  simp only [fitIter, hsolve, hlast]

/-- The covariance matrix is fixed through the loop: every normal return
carries the `K` the loop was entered with. -/
lemma fitIter_K {n C : ℕ} (alg : String)
    (cgS : (Fin (n + 1) → Fin (n + 1) → ℝ) → (Fin (n + 1) → ℝ) → (Fin (n + 1) → ℝ))
    (tol : ℝ) (K : Fin (n + 1) → Fin (n + 1) → ℝ) (y : Fin (n + 1) → Fin (C + 1) → ℝ) :
    ∀ (fuel : ℕ) (f pi : Fin (n + 1) → Fin (C + 1) → ℝ)
      (e : Fin (C + 1) → Fin (n + 1) → ℝ) (lmls : List ℝ) (lml0 : Option ℝ)
      (st : FitState n C),
      fitIter alg cgS tol K y fuel f pi e lmls lml0 = .ok st → st.K = K := by
  intro fuel
  induction fuel with
  | zero =>
    intro f pi e lmls lml0 st h
    rw [fitIter_zero] at h
    cases h
    rfl
  | succ m ih =>
    intro f pi e lmls lml0 st h
    cases hs : solveAll alg cgS K (softmax f) with
    | error err =>
      rw [fitIter_err m pi e lmls lml0 hs] at h
      exact (Except.noConfusion h)
    | ok p =>
      obtain ⟨e', zsum⟩ := p
      cases hl : lmls.getLast? with
      | none =>
        rw [fitIter_step_cont m pi e lmls lml0 hs hl] at h
        exact ih _ _ _ _ _ _ h
      | some prev =>
        rw [fitIter_step_last m pi e lmls lml0 hs hl] at h
        by_cases hc : |stepLml K y e' zsum f - prev| < tol
        · rw [if_pos hc] at h
          cases h
          rfl
        · rw [if_neg hc] at h
          exact ih _ _ _ _ _ _ h

/-- With `lml_` entering as `None`, a normal return never shortens the
`lmls` trace, and it can only hold `some` `lml_` after appending at least
one entry (i.e. after breaking on line 230-231). -/
lemma fitIter_len {n C : ℕ} (alg : String)
    (cgS : (Fin (n + 1) → Fin (n + 1) → ℝ) → (Fin (n + 1) → ℝ) → (Fin (n + 1) → ℝ))
    (tol : ℝ) (K : Fin (n + 1) → Fin (n + 1) → ℝ) (y : Fin (n + 1) → Fin (C + 1) → ℝ) :
    ∀ (fuel : ℕ) (f pi : Fin (n + 1) → Fin (C + 1) → ℝ)
      (e : Fin (C + 1) → Fin (n + 1) → ℝ) (lmls : List ℝ) (st : FitState n C),
      fitIter alg cgS tol K y fuel f pi e lmls none = .ok st →
      lmls.length ≤ st.lmls.length ∧
        (st.lml = none ∨ lmls.length + 1 ≤ st.lmls.length) := by
  intro fuel
  induction fuel with
  | zero =>
    intro f pi e lmls st h
    rw [fitIter_zero] at h
    cases h
    exact ⟨le_refl _, Or.inl rfl⟩
  | succ m ih =>
    intro f pi e lmls st h
    cases hs : solveAll alg cgS K (softmax f) with
    | error err =>
      rw [fitIter_err m pi e lmls none hs] at h
      exact (Except.noConfusion h)
    | ok p =>
      obtain ⟨e', zsum⟩ := p
      cases hl : lmls.getLast? with
      | none =>
        rw [fitIter_step_cont m pi e lmls none hs hl] at h
        have := ih _ _ _ _ _ h
        rw [List.length_append, List.length_singleton] at this
        refine ⟨by omega, ?_⟩
        rcases this.2 with h1 | h2
        · exact Or.inl h1
        · exact Or.inr (by omega)
      | some prev =>
        rw [fitIter_step_last m pi e lmls none hs hl] at h
        by_cases hc : |stepLml K y e' zsum f - prev| < tol
        · rw [if_pos hc] at h
          cases h
          simp only [List.length_append, List.length_singleton]
          exact ⟨by omega, Or.inr (by omega)⟩
        · rw [if_neg hc] at h
          have := ih _ _ _ _ _ h
          rw [List.length_append, List.length_singleton] at this
          refine ⟨by omega, ?_⟩
          rcases this.2 with h1 | h2
          · exact Or.inl h1
          · exact Or.inr (by omega)

/-- A run that never triggers the convergence break (`lml_` still `None`
on return, having entered as `None`) executes its whole iteration budget:
one `lml` is appended per iteration. -/
lemma fitIter_noconv_len {n C : ℕ} (alg : String)
    (cgS : (Fin (n + 1) → Fin (n + 1) → ℝ) → (Fin (n + 1) → ℝ) → (Fin (n + 1) → ℝ))
    (tol : ℝ) (K : Fin (n + 1) → Fin (n + 1) → ℝ) (y : Fin (n + 1) → Fin (C + 1) → ℝ) :
    ∀ (fuel : ℕ) (f pi : Fin (n + 1) → Fin (C + 1) → ℝ)
      (e : Fin (C + 1) → Fin (n + 1) → ℝ) (lmls : List ℝ) (st : FitState n C),
      fitIter alg cgS tol K y fuel f pi e lmls none = .ok st → st.lml = none →
      st.lmls.length = lmls.length + fuel := by
  intro fuel
  induction fuel with
  | zero =>
    intro f pi e lmls st h _
    rw [fitIter_zero] at h
    cases h
    rfl
  | succ m ih =>
    intro f pi e lmls st h hnone
    cases hs : solveAll alg cgS K (softmax f) with
    | error err =>
      rw [fitIter_err m pi e lmls none hs] at h
      exact (Except.noConfusion h)
    | ok p =>
      obtain ⟨e', zsum⟩ := p
      cases hl : lmls.getLast? with
      | none =>
        rw [fitIter_step_cont m pi e lmls none hs hl] at h
        have := ih _ _ _ _ _ h hnone
        rw [List.length_append, List.length_singleton] at this
        omega
      | some prev =>
        rw [fitIter_step_last m pi e lmls none hs hl] at h
        by_cases hc : |stepLml K y e' zsum f - prev| < tol
        · rw [if_pos hc] at h
          cases h
          exact absurd hnone (by simp)
        · rw [if_neg hc] at h
          have := ih _ _ _ _ _ h hnone
          rw [List.length_append, List.length_singleton] at this
          omega

/-- Whenever at least one iteration runs, the `pi_` attribute of a normal
return is the softmax of some latent iterate. -/
lemma fitIter_pi_softmax {n C : ℕ} (alg : String)
    (cgS : (Fin (n + 1) → Fin (n + 1) → ℝ) → (Fin (n + 1) → ℝ) → (Fin (n + 1) → ℝ))
    (tol : ℝ) (K : Fin (n + 1) → Fin (n + 1) → ℝ) (y : Fin (n + 1) → Fin (C + 1) → ℝ) :
    ∀ (fuel : ℕ) (f pi : Fin (n + 1) → Fin (C + 1) → ℝ)
      (e : Fin (C + 1) → Fin (n + 1) → ℝ) (lmls : List ℝ) (lml0 : Option ℝ)
      (st : FitState n C),
      fitIter alg cgS tol K y (fuel + 1) f pi e lmls lml0 = .ok st →
      ∃ g, st.pi = softmax g := by
  intro fuel
  induction fuel with
  | zero =>
    intro f pi e lmls lml0 st h
    cases hs : solveAll alg cgS K (softmax f) with
    | error err =>
      rw [fitIter_err 0 pi e lmls lml0 hs] at h
      exact (Except.noConfusion h)
    | ok p =>
      obtain ⟨e', zsum⟩ := p
      cases hl : lmls.getLast? with
      | none =>
        rw [fitIter_step_cont 0 pi e lmls lml0 hs hl, fitIter_zero] at h
        cases h
        exact ⟨f, rfl⟩
      | some prev =>
        rw [fitIter_step_last 0 pi e lmls lml0 hs hl] at h
        by_cases hc : |stepLml K y e' zsum f - prev| < tol
        · rw [if_pos hc] at h
          cases h
          exact ⟨f, rfl⟩
        · rw [if_neg hc, fitIter_zero] at h
          cases h
          exact ⟨f, rfl⟩
  | succ m ih =>
    intro f pi e lmls lml0 st h
    cases hs : solveAll alg cgS K (softmax f) with
    | error err =>
      rw [fitIter_err (m + 1) pi e lmls lml0 hs] at h
      exact (Except.noConfusion h)
    | ok p =>
      obtain ⟨e', zsum⟩ := p
      cases hl : lmls.getLast? with
      | none =>
        rw [fitIter_step_cont (m + 1) pi e lmls lml0 hs hl] at h
        exact ih _ _ _ _ _ _ h
      | some prev =>
        rw [fitIter_step_last (m + 1) pi e lmls lml0 hs hl] at h
        by_cases hc : |stepLml K y e' zsum f - prev| < tol
        · rw [if_pos hc] at h
          cases h
          exact ⟨f, rfl⟩
        · rw [if_neg hc] at h
          exact ih _ _ _ _ _ _ h

/-- Unfolding `fit` to the loop it runs. -/
lemma fit_eq {n C : ℕ} (alg : String) (sigma_n tol : ℝ)
    (cgS : (Fin (n + 1) → Fin (n + 1) → ℝ) → (Fin (n + 1) → ℝ) → (Fin (n + 1) → ℝ))
    (maxIter : ℕ) (KX : Fin (n + 1) → Fin (n + 1) → ℝ)
    (y : Fin (n + 1) → Fin (C + 1) → ℝ)
    (K0 : Option (Fin (n + 1) → Fin (n + 1) → ℝ)) (lml0 : Option ℝ) :
    fit alg sigma_n tol cgS maxIter KX y K0 lml0 =
      fitIter alg cgS tol
        (match K0 with
          | some K₀ => K₀
          | none => fun i j => KX i j + sigma_n ^ 2 * (if i = j then 1 else 0))
        y maxIter (fun _ _ => 0) (fun _ _ => 0) (fun _ _ => 0) [] lml0 := rfl

/-! ### Evaluation helpers for one-sample systems -/

lemma cholPiv_zeroCol {n : ℕ} (A : Fin n → Fin n → ℝ) (j : Fin n) (hj : j.val = 0) :
    cholPiv A j = A j j := by
  unfold cholPiv
  rw [hj]
  simp

lemma cholOk_one (A : Fin 1 → Fin 1 → ℝ) : cholOk A ↔ 0 < A 0 0 := by
  constructor
  · intro h
    have := h 0
    rwa [cholPiv_zeroCol A 0 rfl] at this
  · intro h j
    obtain rfl : j = 0 := Subsingleton.elim _ _
    rwa [cholPiv_zeroCol A 0 rfl]

lemma chol_one (A : Fin 1 → Fin 1 → ℝ) : chol A 0 0 = Real.sqrt (A 0 0) := by
  rw [chol_diag, cholPiv_zeroCol A 0 rfl]

lemma TcOf_one (K : Fin 1 → Fin 1 → ℝ) (sq : Fin 1 → ℝ) :
    TcOf K sq 0 0 = 1 + sq 0 * K 0 0 * sq 0 := by
  unfold TcOf
  rw [if_pos rfl]

/-- On a one-sample system the buggy pair of triangular solves happens to
agree with the true solve: `e_c = pi_c / (1 + K·pi_c)`. -/
lemma exactE_one {C : ℕ} (K : Fin 1 → Fin 1 → ℝ) (pi : Fin 1 → Fin C → ℝ) (c : Fin C)
    (hp : 0 ≤ pi 0 c) (hT : 0 ≤ 1 + K 0 0 * pi 0 c) :
    exactE K pi c = fun _ => pi 0 c / (1 + K 0 0 * pi 0 c) := by
  funext i
  obtain rfl : i = 0 := Subsingleton.elim _ _
  have hT00 : TcOf K (sqrtdOf pi c) 0 0 = 1 + K 0 0 * pi 0 c := by
    rw [TcOf_one]
    unfold sqrtdOf
    have hr : Real.sqrt (pi 0 c) * K 0 0 * Real.sqrt (pi 0 c) =
        K 0 0 * (Real.sqrt (pi 0 c) * Real.sqrt (pi 0 c)) := by ring
    rw [hr, Real.mul_self_sqrt hp]
  unfold exactE
  simp only [exactSolveVec_eq]
  rw [chol_one, hT00]
  unfold sqrtdOf
  rw [div_div, Real.mul_self_sqrt hT, ← mul_div_assoc, Real.mul_self_sqrt hp]

lemma matVec_one (K : Fin 1 → Fin 1 → ℝ) (v : Fin 1 → ℝ) :
    matVec K v 0 = K 0 0 * v 0 := by
  unfold matVec
  rw [Fin.sum_univ_one]

lemma finOne (i : Fin 1) : i = 0 := Subsingleton.elim _ _

lemma bMat_one {C : ℕ} (pi f y : Fin 1 → Fin (C + 1) → ℝ) (i : Fin 1) (c : Fin (C + 1)) :
    bMat (n := 0) pi f y i c =
      pi 0 c * (f 0 c - ∑ c', pi 0 c' * f 0 c') + y i c - pi i c := by
  obtain rfl : i = 0 := finOne i
  show bMat pi f y ⟨0, Nat.one_pos⟩ c = _
  unfold bMat
  simp only [Fin.val_mk, Nat.zero_mul, Nat.zero_add, Nat.mod_one, Nat.div_one, Fin.eta]
  norm_num

lemma floorDenom_pos (s : ℝ) : 0 < floorDenom s :=
  lt_of_lt_of_le (by norm_num [eps]) (le_max_right s eps)

/-- The exact-mode solve phase on one sample: for each class,
`e_c = pi_c / (1 + K·pi_c)` and the factorisation succeeds whenever the
scalar `T_c` is positive. -/
lemma solveAll_exact_one {C : ℕ}
    (cgS : (Fin 1 → Fin 1 → ℝ) → (Fin 1 → ℝ) → (Fin 1 → ℝ))
    (K : Fin 1 → Fin 1 → ℝ) (pi : Fin 1 → Fin C → ℝ)
    (hp : ∀ c, 0 ≤ pi 0 c) (hT : ∀ c, 0 < 1 + K 0 0 * pi 0 c) :
    solveAll "exact" cgS K pi =
      .ok (fun c _ => pi 0 c / (1 + K 0 0 * pi 0 c), zOf K pi) := by
  have hT00 : ∀ c, TcOf K (sqrtdOf pi c) 0 0 = 1 + K 0 0 * pi 0 c := by
    intro c
    rw [TcOf_one]
    unfold sqrtdOf
    have hr : Real.sqrt (pi 0 c) * K 0 0 * Real.sqrt (pi 0 c) =
        K 0 0 * (Real.sqrt (pi 0 c) * Real.sqrt (pi 0 c)) := by ring
    rw [hr, Real.mul_self_sqrt (hp c)]
  unfold solveAll
  rw [if_pos rfl]
  have hok : ∀ c, cholOk (TcOf K (sqrtdOf pi c)) := by
    intro c
    rw [cholOk_one, hT00 c]
    exact hT c
  rw [dif_pos hok]
  have he : (fun c => exactE K pi c) =
      fun c (_ : Fin 1) => pi 0 c / (1 + K 0 0 * pi 0 c) := by
    funext c
    exact exactE_one K pi c (hp c) (hT c).le
  rw [he]

/-- The omitted determinant term on one sample. -/
lemma zOf_one {C : ℕ} (K : Fin 1 → Fin 1 → ℝ) (pi : Fin 1 → Fin C → ℝ)
    (hp : ∀ c, 0 ≤ pi 0 c) :
    zOf K pi = ∑ c, Real.log (Real.sqrt (1 + K 0 0 * pi 0 c)) := by
  unfold zOf
  refine Finset.sum_congr rfl fun c _ => ?_
  rw [Fin.sum_univ_one, chol_one, TcOf_one]
  unfold sqrtdOf
  have hr : Real.sqrt (pi 0 c) * K 0 0 * Real.sqrt (pi 0 c) =
      K 0 0 * (Real.sqrt (pi 0 c) * Real.sqrt (pi 0 c)) := by ring
  rw [hr, Real.mul_self_sqrt (hp c)]

/-- Projections of a one-iteration tail of the loop: whatever the
convergence branch does, the returned `pi_`/`_e` are the ones this last
iteration computed. -/
lemma fitIter_one_proj {n C : ℕ} {alg : String}
    {cgS : (Fin (n + 1) → Fin (n + 1) → ℝ) → (Fin (n + 1) → ℝ) → (Fin (n + 1) → ℝ)}
    {tol : ℝ} {K : Fin (n + 1) → Fin (n + 1) → ℝ} {y f : Fin (n + 1) → Fin (C + 1) → ℝ}
    {e' : Fin (C + 1) → Fin (n + 1) → ℝ} {zsum : ℝ}
    (pi : Fin (n + 1) → Fin (C + 1) → ℝ) (e : Fin (C + 1) → Fin (n + 1) → ℝ)
    (lmls : List ℝ) (lml0 : Option ℝ)
    (hsolve : solveAll alg cgS K (softmax f) = .ok (e', zsum)) :
    stE (fitIter alg cgS tol K y 1 f pi e lmls lml0) = e' ∧
      stPi (fitIter alg cgS tol K y 1 f pi e lmls lml0) = softmax f := by
  cases hl : lmls.getLast? with
  | none =>
    rw [fitIter_step_cont 0 pi e lmls lml0 hsolve hl, fitIter_zero]
    exact ⟨rfl, rfl⟩
  | some prev =>
    rw [fitIter_step_last 0 pi e lmls lml0 hsolve hl]
    by_cases hc : |stepLml K y e' zsum f - prev| < tol
    · rw [if_pos hc]
      exact ⟨rfl, rfl⟩
    · rw [if_neg hc, fitIter_zero]
      exact ⟨rfl, rfl⟩

/-! ### A concrete one-sample, two-class training run -/

/-- One training sample with one-hot label `[1, 0]`. -/
def y1 : Fin 1 → Fin 2 → ℝ := fun _ c => if c = 0 then 1 else 0

/-- The kernel Gram matrix `kernel(X, X) = [[1]]` (e.g. an RBF kernel at a
single training point). -/
def KX1 : Fin 1 → Fin 1 → ℝ := fun _ _ => 1

/-- A placeholder for the external cg solver (exact-mode runs never call
it). -/
def cgX {n : ℕ} : (Fin n → Fin n → ℝ) → (Fin n → ℝ) → (Fin n → ℝ) := fun _ b => b

/-- The covariance matrix the concrete runs work with. -/
def K1 : Fin 1 → Fin 1 → ℝ := fun _ _ => 1

/-- The uniform class-probability matrix `softmax(0)`. -/
def piH : Fin 1 → Fin 2 → ℝ := fun _ _ => 1 / 2

/-- The correction vectors of the first iteration: `e_c = (1/2)/(3/2)`. -/
def e3 : Fin 2 → Fin 1 → ℝ := fun _ _ => 1 / 3

/-- The latent matrix after one Newton iteration. -/
def f1 : Fin 1 → Fin 2 → ℝ := fun _ c => if c = 0 then 1 / 3 else -(1 / 3)

lemma softmax_f0 : softmax (fun _ _ => (0 : ℝ)) = piH := by
  rw [softmax_zero]
  funext i c
  norm_num [piH]

lemma solveAll_run1 :
    solveAll "exact" cgX K1 piH = .ok (e3, zOf K1 piH) := by
  rw [solveAll_exact_one cgX K1 piH (fun c => by norm_num [piH])
    (fun c => by norm_num [piH, K1])]
  have he : (fun (c : Fin 2) (_ : Fin 1) => piH 0 c / (1 + K1 0 0 * piH 0 c)) = e3 := by
    funext c i
    norm_num [piH, K1, e3]
  rw [he]

lemma stepF_run1 : stepF K1 y1 e3 (fun _ _ => 0) = f1 := by
  have hb : ∀ c' : Fin 2, bMat (softmax (fun _ _ => (0 : ℝ))) (fun _ _ => 0) y1 0 c' =
      y1 0 c' - 1 / 2 := by
    intro c'
    rw [softmax_f0, bMat_one]
    simp [piH]
  funext i c
  obtain rfl : i = 0 := finOne i
  simp only [stepF, fNew, stepA, aMat, cMat, t4Of, t3Of, matVec_one, hb]
  rw [Fin.sum_univ_two, Fin.sum_univ_two]
  fin_cases c <;> norm_num [y1, K1, e3, f1]

lemma run1core (tol : ℝ) (lml0 : Option ℝ) (m : ℕ) :
    ∃ L, fitIter "exact" cgX tol K1 y1 (m + 1) (fun _ _ => 0) (fun _ _ => 0)
        (fun _ _ => 0) [] lml0 =
      fitIter "exact" cgX tol K1 y1 m f1 piH e3 [L] lml0 := by
  refine ⟨stepLml K1 y1 e3 (zOf K1 piH) (fun _ _ => 0), ?_⟩
  have hsolve : solveAll "exact" cgX K1 (softmax (fun _ _ => (0 : ℝ))) =
      .ok (e3, zOf K1 piH) := by
    rw [softmax_f0, solveAll_run1]
  rw [fitIter_step_cont m _ _ [] lml0 hsolve rfl, stepF_run1, softmax_f0,
    List.nil_append]

/-- The concrete fit: one sample, two classes, `K = [[1]]`, `max_iter = 1`,
exact mode, fresh model. -/
def run1 : Except GPErr (FitState 0 1) := fit "exact" 0 1 cgX 1 KX1 y1 none none

lemma Kfresh_run1 :
    (fun i j => KX1 i j + (0 : ℝ) ^ 2 * (if i = j then 1 else 0)) = K1 := by
  funext i j
  simp [KX1, K1]

lemma run1_unfold : run1 = fitIter "exact" cgX 1 K1 y1 1 (fun _ _ => 0)
    (fun _ _ => 0) (fun _ _ => 0) [] none := by
  rw [← Kfresh_run1]
  rfl

lemma run1_ok : ∃ L, run1 = .ok ⟨K1, f1, piH, e3, [L], none⟩ := by
  obtain ⟨L, h⟩ := run1core 1 none 0
  exact ⟨L, by rw [run1_unfold, h, fitIter_zero]⟩

/-! ### Claim C3 -/

/-- C3, counterexample: on a concrete fit that returns (`max_iter`
exceeded), the stored `pi_` is the softmax of the *previous* latent
iterate, not of the stored `f_`: line 186 computes `pi_` before line 223
overwrites `f_`, so the two are off by one iteration on exit. -/
theorem C3_pi_stale_counterexample :
    isOk run1 = true ∧ stPi run1 ≠ softmax (stF run1) := by
  obtain ⟨L, h⟩ := run1_ok
  constructor
  · rw [h]
    rfl
  · rw [h]
    show piH ≠ softmax f1
    intro hEq
    have h00' : (1 : ℝ) / 2 = softmaxRow (f1 0) 0 := congrFun (congrFun hEq 0) 0
    unfold softmaxRow at h00'
    rw [Fin.sum_univ_two] at h00'
    have hf0 : f1 0 0 = 1 / 3 := by simp [f1]
    have hf1 : f1 0 1 = -(1 / 3) := by simp [f1]
    rw [hf0, hf1] at h00'
    set M := rowMax (f1 0) with hM
    have hss : Real.exp (1 / 3 - M) + Real.exp (-(1 / 3) - M) ≠ 0 := by positivity
    rw [eq_div_iff hss] at h00'
    have hAB : Real.exp (-(1 / 3) - M) = Real.exp (1 / 3 - M) := by linarith
    have h2 := Real.exp_eq_exp.mp hAB
    linarith

/-- C3, amended: whenever a fit with at least one allowed iteration returns
normally, `pi_` is the row-wise softmax of *some* latent iterate (the one
at the start of the final executed iteration), hence each of its rows is
non-negative and sums to 1; it is not in general the softmax of the stored
final `f_`. -/
theorem C3_pi_softmax_rows {n C : ℕ} (alg : String) (sigma_n tol : ℝ)
    (cgS : (Fin (n + 1) → Fin (n + 1) → ℝ) → (Fin (n + 1) → ℝ) → (Fin (n + 1) → ℝ))
    (maxIter : ℕ) (KX : Fin (n + 1) → Fin (n + 1) → ℝ)
    (y : Fin (n + 1) → Fin (C + 1) → ℝ)
    (K0 : Option (Fin (n + 1) → Fin (n + 1) → ℝ)) (lml0 : Option ℝ)
    (st : FitState n C) (hm : 0 < maxIter)
    (h : fit alg sigma_n tol cgS maxIter KX y K0 lml0 = .ok st) :
    (∃ g, st.pi = softmax g) ∧ (∀ i, ∑ c, st.pi i c = 1) ∧
      (∀ i c, 0 ≤ st.pi i c) := by
  obtain ⟨m, rfl⟩ : ∃ m, maxIter = m + 1 := ⟨maxIter - 1, by omega⟩
  rw [fit_eq] at h
  obtain ⟨g, hg⟩ := fitIter_pi_softmax _ _ _ _ _ m _ _ _ _ _ _ h
  refine ⟨⟨g, hg⟩, ?_, ?_⟩
  · intro i
    rw [hg]
    exact softmaxRow_sum (g i)
  · intro i c
    rw [hg]
    exact (softmaxRow_pos (g i) c).le

/-- C3, witness for the amended theorem at the concrete run. -/
theorem C3_pi_softmax_rows_witness : ∑ c, stPi run1 (0 : Fin 1) c = 1 := by
  obtain ⟨L, h⟩ := run1_ok
  have hfit : fit "exact" 0 1 cgX 1 KX1 y1 none none = .ok ⟨K1, f1, piH, e3, [L], none⟩ := h
  have hmain := C3_pi_softmax_rows "exact" 0 1 cgX 1 KX1 y1 none none _ Nat.one_pos hfit
  rw [show stPi run1 = piH from by rw [h]; rfl]
  exact hmain.2.1 0

/-! ### Claim C7 -/

/-- C7, counterexample: on the `max_iter`-exceeded path the fit returns
normally, an `lml` was computed for the completed iteration (it is the last
entry of the loop's `lmls`), but `lml_` is *not* updated: the `return` on
line 184 skips line 232, so `lml_` keeps its prior value (`None` on a fresh
model) instead of the final iterate's `lml`. -/
theorem C7_lml_not_stored_counterexample :
    isOk run1 = true ∧ stLml run1 = none ∧ (stLmls run1).length = 1 := by
  obtain ⟨L, h⟩ := run1_ok
  refine ⟨by rw [h]; rfl, by rw [h]; rfl, by rw [h]; rfl⟩

/-- C7, amended: when the Newton loop exhausts `max_iter` without the
convergence break firing (visible as `lml_` still `None` on a fresh
model), `fit` raises no exception and returns the current iterate state:
every one of the `max_iter` iterations completed and appended its `lml`,
but none of them was stored into `lml_`. -/
theorem C7_maxiter_state {n C : ℕ} (alg : String) (sigma_n tol : ℝ)
    (cgS : (Fin (n + 1) → Fin (n + 1) → ℝ) → (Fin (n + 1) → ℝ) → (Fin (n + 1) → ℝ))
    (maxIter : ℕ) (KX : Fin (n + 1) → Fin (n + 1) → ℝ)
    (y : Fin (n + 1) → Fin (C + 1) → ℝ)
    (K0 : Option (Fin (n + 1) → Fin (n + 1) → ℝ)) (st : FitState n C)
    (h : fit alg sigma_n tol cgS maxIter KX y K0 none = .ok st)
    (hnc : st.lml = none) :
    st.lmls.length = maxIter := by
  rw [fit_eq] at h
  have := fitIter_noconv_len alg cgS tol _ y maxIter _ _ _ _ _ h hnc
  simpa using this

/-- C7, witness for the amended theorem at the concrete run. -/
theorem C7_maxiter_state_witness : (stLmls run1).length = 1 := by
  obtain ⟨L, h⟩ := run1_ok
  have hfit : fit "exact" 0 1 cgX 1 KX1 y1 none none = .ok ⟨K1, f1, piH, e3, [L], none⟩ := h
  have := C7_maxiter_state "exact" 0 1 cgX 1 KX1 y1 none _ hfit rfl
  rw [show stLmls run1 = [L] from by rw [h]; rfl]
  exact this

/-! ### Claim C8 -/

/-- The same fit as `run1` but with the invalid noise level
`sigma_n = -1`. -/
def runNeg : Except GPErr (FitState 0 1) :=
  fit "exact" (-1) 1 cgX 1 (fun _ _ => 0) y1 none none

lemma Kfresh_neg :
    (fun i j => (fun _ _ => (0 : ℝ)) i j + (-1 : ℝ) ^ 2 * (if i = j then 1 else 0)) = K1 := by
  funext i j
  obtain rfl : i = 0 := finOne i
  obtain rfl : j = 0 := finOne j
  norm_num [K1]

lemma runNeg_unfold : runNeg = fitIter "exact" cgX 1 K1 y1 1 (fun _ _ => 0)
    (fun _ _ => 0) (fun _ _ => 0) [] none := by
  rw [← Kfresh_neg]
  rfl

/-- C8, counterexample: `sigma_n = -1` is an invalid configuration, yet no
`InvalidConfiguration` error is raised at fit entry (or ever): the fit runs
to a normal return, silently squaring the negative noise level into the
diagonal boost. -/
theorem C8_no_validation_counterexample :
    ((-1 : ℝ) < 0) ∧ isOk runNeg = true := by
  refine ⟨by norm_num, ?_⟩
  obtain ⟨L, h⟩ := run1core 1 none 0
  rw [runNeg_unfold, h, fitIter_zero]
  rfl

/-- C8, amended: the code performs no configuration validation.  A negative
`sigma_n` is accepted silently (its square enters `K`), and an algorithm
name other than `'exact'`/`'cg'` does not raise at entry but crashes inside
the first Newton iteration with an unbound-local error when the unassigned
`e_c` is appended (line 203). -/
theorem C8_unknown_algorithm {n C : ℕ} (alg : String)
    (h1 : alg ≠ "exact") (h2 : alg ≠ "cg") (sigma_n tol : ℝ)
    (cgS : (Fin (n + 1) → Fin (n + 1) → ℝ) → (Fin (n + 1) → ℝ) → (Fin (n + 1) → ℝ))
    (m : ℕ) (KX : Fin (n + 1) → Fin (n + 1) → ℝ)
    (y : Fin (n + 1) → Fin (C + 1) → ℝ)
    (K0 : Option (Fin (n + 1) → Fin (n + 1) → ℝ)) (lml0 : Option ℝ) :
    fit alg sigma_n tol cgS (m + 1) KX y K0 lml0 = .error .unboundLocal := by
  rw [fit_eq]
  have hsolve : ∀ K : Fin (n + 1) → Fin (n + 1) → ℝ,
      solveAll alg cgS K (softmax (n := n) (C := C) (fun _ _ => (0 : ℝ))) =
        .error .unboundLocal := by
    intro K
    unfold solveAll
    rw [if_neg h1, if_neg h2]
  exact fitIter_err m _ _ [] lml0 (hsolve _)

/-- C8, witness for the amended theorem at a concrete unknown algorithm. -/
theorem C8_unknown_algorithm_witness :
    ("newton" ≠ "exact") ∧ ("newton" ≠ "cg") ∧
      fit "newton" 0 1 cgX 1 KX1 y1 none none = .error .unboundLocal := by
  refine ⟨by decide, by decide, ?_⟩
  exact C8_unknown_algorithm "newton" (by decide) (by decide) 0 1 cgX 0 KX1 y1 none none

/-! ### Claim C9 -/

/-- A fit on a model that already holds a covariance matrix
(`K_ = [[1]]`, as left behind by an earlier fit), with a kernel that now
returns `[[7]]`. -/
def runK : Except GPErr (FitState 0 1) :=
  fit "exact" 0 1 cgX 1 (fun _ _ => 7) y1 (some K1) none

lemma runK_unfold : runK = fitIter "exact" cgX 1 K1 y1 1 (fun _ _ => 0)
    (fun _ _ => 0) (fun _ _ => 0) [] none := rfl

/-- C9, counterexample: `K` is *not* created fresh at the start of every
fit.  With `K_` already set (here to `[[1]]`), a fit whose kernel returns
`[[7]]` keeps the stale `K_ = [[1]]` — the guard `if self.K_ is None` on
line 172 skips the rebuild, contradicting the claim that a second fit
rebuilds `K` from the new data. -/
theorem C9_K_reuse_counterexample :
    stK runK = K1 ∧
      K1 ≠ fun i j => (fun _ _ => (7 : ℝ)) i j + (0 : ℝ) ^ 2 * (if i = j then 1 else 0) := by
  constructor
  · obtain ⟨L, h⟩ := run1core 1 none 0
    rw [runK_unfold, h, fitIter_zero]
    rfl
  · intro hEq
    have := congrFun (congrFun hEq 0) 0
    norm_num [K1] at this

/-- C9, amended: within one `fit` call the covariance matrix is fixed
after construction (every normal return carries it unchanged), and it is
built as `kernel(X, X) + sigma_n² I` exactly when the model's `K_` is
`None` on entry; otherwise the existing `K_` is reused as-is. -/
theorem C9_K_construction {n C : ℕ} (alg : String) (sigma_n tol : ℝ)
    (cgS : (Fin (n + 1) → Fin (n + 1) → ℝ) → (Fin (n + 1) → ℝ) → (Fin (n + 1) → ℝ))
    (maxIter : ℕ) (KX : Fin (n + 1) → Fin (n + 1) → ℝ)
    (y : Fin (n + 1) → Fin (C + 1) → ℝ)
    (K0 : Option (Fin (n + 1) → Fin (n + 1) → ℝ)) (lml0 : Option ℝ)
    (st : FitState n C)
    (h : fit alg sigma_n tol cgS maxIter KX y K0 lml0 = .ok st) :
    st.K = (match K0 with
      | some K₀ => K₀
      | none => fun i j => KX i j + sigma_n ^ 2 * (if i = j then 1 else 0)) := by
  cases K0 with
  | none =>
    rw [fit_eq] at h
    exact fitIter_K alg cgS tol _ y maxIter _ _ _ _ _ _ h
  | some K₀ =>
    rw [fit_eq] at h
    exact fitIter_K alg cgS tol _ y maxIter _ _ _ _ _ _ h

/-! ### Claim C4 -/

/-- The concrete fit with `max_iter = 2`: the stored `_e` comes from the
second iteration, whose `pi` is no longer uniform. -/
def run2 : Except GPErr (FitState 0 1) := fit "exact" 0 1 cgX 2 KX1 y1 none none

lemma run2_unfold : run2 = fitIter "exact" cgX 1 K1 y1 2 (fun _ _ => 0)
    (fun _ _ => 0) (fun _ _ => 0) [] none := by
  rw [← Kfresh_run1]
  rfl

/-- The correction vectors of the second iteration. -/
def e2 : Fin 2 → Fin 1 → ℝ := fun c _ => softmax f1 0 c / (1 + softmax f1 0 c)

lemma solveAll_run2 :
    solveAll "exact" cgX K1 (softmax f1) = .ok (e2, zOf K1 (softmax f1)) := by
  rw [solveAll_exact_one cgX K1 (softmax f1)
    (fun c => (softmaxRow_pos (f1 0) c).le)
    (fun c => by
      have h := softmaxRow_pos (f1 0) c
      show (0 : ℝ) < 1 + K1 0 0 * softmax f1 0 c
      have hk : K1 0 0 = 1 := rfl
      rw [hk, one_mul]
      have : softmax f1 0 c = softmaxRow (f1 0) c := rfl
      rw [this]
      linarith)]
  have he : (fun (c : Fin 2) (_ : Fin 1) => softmax f1 0 c / (1 + K1 0 0 * softmax f1 0 c)) = e2 := by
    funext c i
    show softmax f1 0 c / (1 + K1 0 0 * softmax f1 0 c) = softmax f1 0 c / (1 + softmax f1 0 c)
    norm_num [K1]
  rw [he]

lemma run2_stE : stE run2 = e2 := by
  obtain ⟨L, h⟩ := run1core 1 none 1
  rw [run2_unfold, h]
  exact (fitIter_one_proj piH e3 [L] none solveAll_run2).1

lemma softmax_f1_facts :
    0 < softmax f1 0 1 ∧ softmax f1 0 1 < softmax f1 0 0 := by
  refine ⟨softmaxRow_pos (f1 0) 1, ?_⟩
  show softmaxRow (f1 0) 1 < softmaxRow (f1 0) 0
  unfold softmaxRow
  have hS := expSum_pos (f1 0)
  rw [div_lt_div_iff_of_pos_right hS]
  apply Real.exp_lt_exp.mpr
  have hf0 : f1 0 0 = 1 / 3 := by simp [f1]
  have hf1 : f1 0 1 = -(1 / 3) := by simp [f1]
  rw [hf0, hf1]
  have : (-(1 / 3) : ℝ) < 1 / 3 := by norm_num
  linarith

/-- C4, counterexample: `Sigma` as assembled by `_predict_k_star` is not
symmetric for the fitted posterior of `run2` at the query `k* = [1]`,
`k** = 1`: its off-diagonal row entries are the row-constant `c_c · k*`,
and the second iteration's `e_0 ≠ e_1` makes `Sigma[0,1] ≠ Sigma[1,0]`
(hence `Sigma` is not symmetric positive-semidefinite). -/
theorem C4_sigma_asymmetric_counterexample :
    SigmaOf (stE run2) (fun _ => 1) 1 0 1 ≠ SigmaOf (stE run2) (fun _ => 1) 1 1 0 := by
  rw [run2_stE]
  obtain ⟨hqpos, hlt⟩ := softmax_f1_facts
  unfold SigmaOf predC predT2 predB e2
  rw [if_neg (show ¬((1 : Fin 2) = 0) by decide),
    if_neg (show ¬((0 : Fin 2) = 1) by decide)]
  rw [Fin.sum_univ_one, Fin.sum_univ_one, Fin.sum_univ_two]
  set p := softmax f1 0 0 with hp'
  set q := softmax f1 0 1 with hq'
  have hppos : (0 : ℝ) < p := lt_trans hqpos hlt
  have h1p : (0 : ℝ) < 1 + p := by linarith
  have h1q : (0 : ℝ) < 1 + q := by linarith
  set D := floorDenom (p / (1 + p) + q / (1 + q)) with hD'
  have hD : 0 < D := floorDenom_pos _
  have hep : (0 : ℝ) < p / (1 + p) := div_pos hppos h1p
  have heq : (0 : ℝ) < q / (1 + q) := div_pos hqpos h1q
  have hlt2 : q / (1 + q) < p / (1 + p) := by
    rw [div_lt_div_iff₀ h1q h1p]
    nlinarith
  refine ne_of_gt ?_
  simp only [mul_one, add_zero]
  have hsh : ∀ x : ℝ, x * (x / D) = x * x / D := fun x => by ring
  rw [hsh, hsh, div_lt_div_iff_of_pos_right hD]
  nlinarith [hlt2, hep, heq]

/-- C4, amended: `Sigma[c, c']` is the row-constant `c_c · k*` off the
diagonal, so `Sigma` is symmetric whenever the per-class correction
vectors coincide (e.g. in the first Newton iteration, where `pi` is
uniform), but not for a general fitted posterior. -/
theorem C4_sigma_symmetric_of_equal_e {n C : ℕ} (e : Fin C → Fin n → ℝ)
    (kstar : Fin n → ℝ) (kss : ℝ) (he : ∀ c c', e c = e c') (c c' : Fin C) :
    SigmaOf e kstar kss c c' = SigmaOf e kstar kss c' c := by
  by_cases h : c' = c
  · subst h
    rfl
  · unfold SigmaOf predC predT2 predB
    rw [if_neg h, if_neg (fun hh => h hh.symm)]
    rw [he c c']

/-- C4, witness for the amended theorem with equal correction vectors. -/
theorem C4_sigma_symmetric_witness :
    (∀ c c' : Fin 2, (fun (_ : Fin 2) (_ : Fin 1) => (1 : ℝ)) c =
        (fun (_ : Fin 2) (_ : Fin 1) => (1 : ℝ)) c') ∧
      SigmaOf (fun (_ : Fin 2) (_ : Fin 1) => (1 : ℝ)) (fun _ => 1) 0 0 1 =
        SigmaOf (fun (_ : Fin 2) (_ : Fin 1) => (1 : ℝ)) (fun _ => 1) 0 1 0 :=
  ⟨fun _ _ => rfl,
    C4_sigma_symmetric_of_equal_e (fun (_ : Fin 2) (_ : Fin 1) => (1 : ℝ))
      (fun _ => 1) 0 (fun _ _ => rfl) 0 1⟩

/-! ### Claim C6 -/

/-- When the abstract cg solver returns exactly what the exact path's two
triangular solves return, the cg solve phase produces the same correction
vectors as a successful exact solve phase, and the exact phase's `zsum` is
the determinant term `zOf`. -/
lemma solveAll_cg_eq_exact {n C : ℕ}
    (cgS : (Fin n → Fin n → ℝ) → (Fin n → ℝ) → (Fin n → ℝ))
    (K : Fin n → Fin n → ℝ) (pi : Fin n → Fin C → ℝ)
    (hs : ∀ T d, cgS T d = exactSolveVec T d)
    (e' : Fin C → Fin n → ℝ) (zsum : ℝ)
    (hex : solveAll "exact" cgS K pi = .ok (e', zsum)) :
    solveAll "cg" cgS K pi = .ok (e', 0) ∧ zsum = zOf K pi := by
  unfold solveAll at hex ⊢
  rw [if_pos rfl] at hex
  rw [if_neg (by decide : ¬("cg" = "exact")), if_pos rfl]
  by_cases h : ∀ c, cholOk (TcOf K (sqrtdOf pi c))
  · rw [dif_pos h] at hex
    have hp : ((fun c => exactE K pi c, zOf K pi) :
        (Fin C → Fin n → ℝ) × ℝ) = (e', zsum) := Except.ok.inj hex
    have he : (fun c => exactE K pi c) = e' := congrArg Prod.fst hp
    have hz : zOf K pi = zsum := congrArg Prod.snd hp
    refine ⟨?_, hz.symm⟩
    have hee : (fun c i => sqrtdOf pi c i *
        cgS (TcOf K (sqrtdOf pi c)) (sqrtdOf pi c) i) = e' := by
      rw [← he]
      funext c i
      rw [hs]
      rfl
    rw [hee]
  · rw [dif_neg h] at hex
    exact Except.noConfusion hex

/-- Lock-step simulation of the exact-mode and cg-mode Newton loops when
the cg solver reproduces the exact solves: if both runs break at the same
iteration (equal `lmls` trace lengths, `lml_` stored), the stored cg `lml`
exceeds the exact one by exactly the omitted determinant term of the final
iteration. -/
lemma C6_loop {n C : ℕ}
    (cgS : (Fin (n + 1) → Fin (n + 1) → ℝ) → (Fin (n + 1) → ℝ) → (Fin (n + 1) → ℝ))
    (tol : ℝ) (K : Fin (n + 1) → Fin (n + 1) → ℝ) (y : Fin (n + 1) → Fin (C + 1) → ℝ)
    (hs : ∀ T d, cgS T d = exactSolveVec T d) :
    ∀ (fuel : ℕ) (f pi : Fin (n + 1) → Fin (C + 1) → ℝ)
      (e : Fin (C + 1) → Fin (n + 1) → ℝ) (lmlsE lmlsC : List ℝ)
      (stE stC : FitState n C) (LE LC : ℝ),
      lmlsE.length = lmlsC.length →
      fitIter "exact" cgS tol K y fuel f pi e lmlsE none = .ok stE →
      fitIter "cg" cgS tol K y fuel f pi e lmlsC none = .ok stC →
      stE.lml = some LE → stC.lml = some LC →
      stE.lmls.length = stC.lmls.length →
      LC = LE + zOf K stE.pi := by
  intro fuel
  induction fuel with
  | zero =>
    intro f pi e lmlsE lmlsC stE stC LE LC hlen0 hE hC hLE hLC hlen
    rw [fitIter_zero] at hE
    cases hE
    exact Option.noConfusion hLE
  | succ m ih =>
    intro f pi e lmlsE lmlsC stE stC LE LC hlen0 hE hC hLE hLC hlen
    cases hsE : solveAll "exact" cgS K (softmax f) with
    | error err =>
      rw [fitIter_err m pi e lmlsE none hsE] at hE
      exact Except.noConfusion hE
    | ok p =>
      obtain ⟨e', zsum⟩ := p
      obtain ⟨hsC, hzsum⟩ := solveAll_cg_eq_exact cgS K (softmax f) hs e' zsum hsE
      subst hzsum
      cases hlE : lmlsE.getLast? with
      | none =>
        have hlC : lmlsC.getLast? = none := by
          rw [List.getLast?_eq_none_iff] at hlE ⊢
          have hz : lmlsC.length = 0 := by
            rw [← hlen0, hlE]
            rfl
          exact List.length_eq_zero.mp hz
        rw [fitIter_step_cont m pi e lmlsE none hsE hlE] at hE
        rw [fitIter_step_cont m pi e lmlsC none hsC hlC] at hC
        refine ih _ _ _ _ _ _ _ _ _ ?_ hE hC hLE hLC hlen
        simp [hlen0]
      | some prevE =>
        obtain ⟨prevC, hlC⟩ : ∃ prevC, lmlsC.getLast? = some prevC := by
          cases hlC0 : lmlsC.getLast? with
          | some prevC => exact ⟨prevC, rfl⟩
          | none =>
            exfalso
            rw [List.getLast?_eq_none_iff] at hlC0
            rw [hlC0] at hlen0
            have hze : lmlsE = [] := List.length_eq_zero.mp (by simpa using hlen0)
            rw [hze] at hlE
            exact Option.noConfusion hlE
        rw [fitIter_step_last m pi e lmlsE none hsE hlE] at hE
        rw [fitIter_step_last m pi e lmlsC none hsC hlC] at hC
        by_cases hcE : |stepLml K y e' (zOf K (softmax f)) f - prevE| < tol
        · rw [if_pos hcE] at hE
          cases hE
          by_cases hcC : |stepLml K y e' 0 f - prevC| < tol
          · rw [if_pos hcC] at hC
            cases hC
            have hLEv : LE = stepLml K y e' (zOf K (softmax f)) f :=
              (Option.some.inj hLE).symm
            have hLCv : LC = stepLml K y e' 0 f := (Option.some.inj hLC).symm
            rw [hLEv, hLCv]
            show stepLml K y e' 0 f =
              stepLml K y e' (zOf K (softmax f)) f + zOf K (softmax f)
            unfold stepLml lmlOf
            ring
          · rw [if_neg hcC] at hC
            exfalso
            rcases (fitIter_len "cg" cgS tol K y m _ _ _ _ _ hC).2 with h1 | h2
            · rw [h1] at hLC
              exact Option.noConfusion hLC
            · have hlen' : (lmlsE ++ [stepLml K y e' (zOf K (softmax f)) f]).length =
                  stC.lmls.length := hlen
              rw [List.length_append, List.length_singleton] at h2 hlen'
              omega
        · rw [if_neg hcE] at hE
          by_cases hcC : |stepLml K y e' 0 f - prevC| < tol
          · rw [if_pos hcC] at hC
            cases hC
            exfalso
            rcases (fitIter_len "exact" cgS tol K y m _ _ _ _ _ hE).2 with h1 | h2
            · rw [h1] at hLE
              exact Option.noConfusion hLE
            · have hlen' : stE.lmls.length =
                  (lmlsC ++ [stepLml K y e' 0 f]).length := hlen
              rw [List.length_append, List.length_singleton] at h2 hlen'
              omega
          · rw [if_neg hcC] at hC
            refine ih _ _ _ _ _ _ _ _ _ ?_ hE hC hLE hLC hlen
            simp [hlen0]

/-- C6: for matching inputs and an abstract cg solver that reproduces the
exact path's triangular solves, a cg-mode fit that converges at the same
iteration as the exact-mode fit (equal iteration traces, both storing an
`lml_`) stores `lml_exact + zOf`, where `zOf` is the determinant term
`sum_c sum(log diag L_c)` of the final iteration — the term cg mode omits
because no Cholesky factor is available (the docstring's constant
`2 log|B|`). -/
theorem C6_cg_lml_offset {n C : ℕ} (sigma_n tol : ℝ)
    (cgS : (Fin (n + 1) → Fin (n + 1) → ℝ) → (Fin (n + 1) → ℝ) → (Fin (n + 1) → ℝ))
    (maxIter : ℕ) (KX : Fin (n + 1) → Fin (n + 1) → ℝ)
    (y : Fin (n + 1) → Fin (C + 1) → ℝ)
    (K0 : Option (Fin (n + 1) → Fin (n + 1) → ℝ))
    (stE stC : FitState n C) (LE LC : ℝ)
    (hs : ∀ T d, cgS T d = exactSolveVec T d)
    (hE : fit "exact" sigma_n tol cgS maxIter KX y K0 none = .ok stE)
    (hC : fit "cg" sigma_n tol cgS maxIter KX y K0 none = .ok stC)
    (hLE : stE.lml = some LE) (hLC : stC.lml = some LC)
    (hlen : stE.lmls.length = stC.lmls.length) :
    LC = LE + zOf stE.K stE.pi := by
  rw [fit_eq] at hE hC
  have hKE := fitIter_K "exact" cgS tol _ y maxIter _ _ _ _ _ _ hE
  rw [hKE]
  exact C6_loop cgS tol _ y hs maxIter _ _ _ _ _ _ _ _ _ rfl hE hC hLE hLC hlen

/-- The zero kernel matrix: `kernel(X, X) = [[0]]`. -/
def KZ : Fin 1 → Fin 1 → ℝ := fun _ _ => 0

/-- The correction vectors for `K = 0`: `e_c = (1/2)/(1+0) = 1/2`. -/
def eH : Fin 2 → Fin 1 → ℝ := fun _ _ => 1 / 2

lemma zOf_KZ : zOf KZ piH = 0 := by
  rw [zOf_one KZ piH (fun c => by norm_num [piH])]
  simp [KZ, Real.sqrt_one, Real.log_one]

lemma solveAll_KZ : solveAll "exact" exactSolveVec KZ piH = .ok (eH, 0) := by
  rw [solveAll_exact_one exactSolveVec KZ piH (fun c => by norm_num [piH])
    (fun c => by norm_num [piH, KZ])]
  have h1 : (fun (c : Fin 2) (_ : Fin 1) => piH 0 c / (1 + KZ 0 0 * piH 0 c)) = eH := by
    funext c i
    norm_num [piH, KZ, eH]
  rw [h1, zOf_KZ]

lemma stepF_KZ (e : Fin 2 → Fin 1 → ℝ) (f : Fin 1 → Fin 2 → ℝ) :
    stepF KZ y1 e f = fun _ _ => 0 := by
  funext i c
  obtain rfl : i = 0 := finOne i
  simp [stepF, fNew, matVec_one, KZ]

lemma lse_zero : log_sum_exp (fun _ : Fin 2 => (0 : ℝ)) = Real.log 2 := by
  unfold log_sum_exp
  rw [rowMax_const]
  norm_num [Real.exp_zero, Fin.sum_univ_two]

lemma stepLml_KZ (e : Fin 2 → Fin 1 → ℝ) (z : ℝ) :
    stepLml KZ y1 e z (fun _ _ => 0) = -Real.log 2 - z := by
  unfold stepLml
  rw [stepF_KZ]
  unfold lmlOf
  have h1 : (∑ c : Fin 2, ∑ i : Fin 1,
      stepA KZ y1 e (fun _ _ => 0) i c * (fun (_ : Fin 1) (_ : Fin 2) => (0 : ℝ)) i c) = 0 := by
    simp
  have h2 : (∑ c : Fin 2, ∑ i : Fin 1,
      y1 i c * (fun (_ : Fin 1) (_ : Fin 2) => (0 : ℝ)) i c) = 0 := by
    simp
  rw [h1, h2]
  rw [show (∑ i : Fin 1, log_sum_exp fun c =>
      (fun (_ : Fin 1) (_ : Fin 2) => (0 : ℝ)) i c) = Real.log 2 from by
    rw [Fin.sum_univ_one, lse_zero]]
  ring

/-- The state both `K = 0` runs converge to at iteration 2. -/
def st0 : FitState 0 1 :=
  ⟨KZ, fun _ _ => 0, piH, eH, [-Real.log 2, -Real.log 2], some (-Real.log 2)⟩

/-- Exact-mode fit on the zero kernel, `max_iter = 2`, `tol = 1`, with the
cg collaborator instantiated to the exact solves. -/
def runE0 : Except GPErr (FitState 0 1) := fit "exact" 0 1 exactSolveVec 2 KZ y1 none none

/-- The same fit in cg mode. -/
def runC0 : Except GPErr (FitState 0 1) := fit "cg" 0 1 exactSolveVec 2 KZ y1 none none

lemma Kfresh_zero :
    (fun i j => KZ i j + (0 : ℝ) ^ 2 * (if i = j then 1 else 0)) = KZ := by
  funext i j
  norm_num [KZ]

lemma hsolveE0 : solveAll "exact" exactSolveVec KZ (softmax (fun _ _ => (0 : ℝ))) =
    .ok (eH, 0) := by
  rw [softmax_f0, solveAll_KZ]

lemma hsolveC0 : solveAll "cg" exactSolveVec KZ (softmax (fun _ _ => (0 : ℝ))) =
    .ok (eH, 0) := by
  have h := solveAll_cg_eq_exact exactSolveVec KZ (softmax (fun _ _ => (0 : ℝ)))
    (fun _ _ => rfl) eH 0 hsolveE0
  exact h.1

lemma conv_KZ : |stepLml KZ y1 eH 0 (fun _ _ => 0) - -Real.log 2| < 1 := by
  rw [stepLml_KZ]
  norm_num

lemma lastLog2 : ([-Real.log 2] : List ℝ).getLast? = some (-Real.log 2) := rfl

lemma runE0_eval : runE0 = .ok st0 := by
  rw [show runE0 = fitIter "exact" exactSolveVec 1 KZ y1 2 (fun _ _ => 0)
      (fun _ _ => 0) (fun _ _ => 0) [] none from by rw [← Kfresh_zero]; rfl]
  rw [fitIter_step_cont 1 _ _ [] none hsolveE0 rfl]
  rw [stepF_KZ, softmax_f0, stepLml_KZ eH 0, sub_zero, List.nil_append]
  rw [fitIter_step_last 0 piH eH [-Real.log 2] none hsolveE0 lastLog2]
  rw [if_pos conv_KZ]
  rw [stepF_KZ, softmax_f0, stepLml_KZ eH 0, sub_zero]
  rfl

lemma runC0_eval : runC0 = .ok st0 := by
  rw [show runC0 = fitIter "cg" exactSolveVec 1 KZ y1 2 (fun _ _ => 0)
      (fun _ _ => 0) (fun _ _ => 0) [] none from by rw [← Kfresh_zero]; rfl]
  rw [fitIter_step_cont 1 _ _ [] none hsolveC0 rfl]
  rw [stepF_KZ, softmax_f0, stepLml_KZ eH 0, sub_zero, List.nil_append]
  rw [fitIter_step_last 0 piH eH [-Real.log 2] none hsolveC0 lastLog2]
  rw [if_pos conv_KZ]
  rw [stepF_KZ, softmax_f0, stepLml_KZ eH 0, sub_zero]
  rfl

/-- C6, witness: on the zero-kernel run both modes converge at iteration 2
and the stored cg `lml_` equals the exact one plus the (here vanishing)
determinant term. -/
theorem C6_cg_lml_offset_witness :
    (-Real.log 2 : ℝ) = -Real.log 2 + zOf st0.K st0.pi :=
  C6_cg_lml_offset 0 1 exactSolveVec 2 KZ y1 none st0 st0
    (-Real.log 2) (-Real.log 2) (fun _ _ => rfl) runE0_eval runC0_eval rfl rfl rfl

/-! ### Claim C1 -/

/-- The symmetric positive-definite kernel matrix `[[3, 2], [2, 9]]`. -/
def C1K : Fin 2 → Fin 2 → ℝ := fun i j =>
  if i = j then (if i.val = 0 then 3 else 9) else 2

/-- The right-hand side `sqrt_d = (1, 1)`, giving
`T = I + diag(1)·K·diag(1) = [[4, 2], [2, 10]]`. -/
def C1d : Fin 2 → ℝ := fun _ => 1

lemma sqrt_four : Real.sqrt 4 = 2 := by
  rw [show (4 : ℝ) = 2 ^ 2 by norm_num, Real.sqrt_sq (by norm_num : (0 : ℝ) ≤ 2)]

lemma sqrt_nine : Real.sqrt 9 = 3 := by
  rw [show (9 : ℝ) = 3 ^ 2 by norm_num, Real.sqrt_sq (by norm_num : (0 : ℝ) ≤ 3)]

lemma C1T00 : TcOf C1K C1d 0 0 = 4 := by
  norm_num [TcOf, C1K, C1d]

lemma C1T01 : TcOf C1K C1d 0 1 = 2 := by
  norm_num [TcOf, C1K, C1d, Fin.ext_iff]

lemma C1T10 : TcOf C1K C1d 1 0 = 2 := by
  norm_num [TcOf, C1K, C1d, Fin.ext_iff]

lemma C1T11 : TcOf C1K C1d 1 1 = 10 := by
  norm_num [TcOf, C1K, C1d, Fin.ext_iff]

lemma C1piv0 : cholPiv (TcOf C1K C1d) 0 = 4 := by
  rw [cholPiv_zeroCol _ 0 rfl, C1T00]

lemma C1L00 : chol (TcOf C1K C1d) 0 0 = 2 := by
  rw [chol_diag, C1piv0, sqrt_four]

lemma C1L10 : chol (TcOf C1K C1d) 1 0 = 1 := by
  rw [chol_below _ _ _ (show ((0 : Fin 2)).val < ((1 : Fin 2)).val by decide)]
  have hs : (∑ k ∈ (Finset.range ((0 : Fin 2)).val).attach,
      cholCol (TcOf C1K C1d) k.1 1 * cholCol (TcOf C1K C1d) k.1 0) = 0 := by
    simp
  rw [hs, sub_zero, C1piv0, sqrt_four, C1T10]
  norm_num

lemma C1piv1 : cholPiv (TcOf C1K C1d) 1 = 9 := by
  unfold cholPiv
  rw [Finset.sum_attach (Finset.range ((1 : Fin 2)).val)
    (fun k => (cholCol (TcOf C1K C1d) k 1) ^ 2)]
  rw [show ((1 : Fin 2)).val = 1 from rfl, Finset.sum_range_one]
  have h10 : cholCol (TcOf C1K C1d) 0 1 = 1 := C1L10
  rw [h10, C1T11]
  norm_num

lemma C1L11 : chol (TcOf C1K C1d) 1 1 = 3 := by
  rw [chol_diag, C1piv1, sqrt_nine]

lemma C1ok : cholOk (TcOf C1K C1d) := by
  intro j
  fin_cases j
  · show 0 < cholPiv (TcOf C1K C1d) 0
    rw [C1piv0]
    norm_num
  · show 0 < cholPiv (TcOf C1K C1d) 1
    rw [C1piv1]
    norm_num

/-- C1, code bug: the exact-mode per-class solve does *not* produce
`x` with `T x = sqrt_d`.  The source calls `scipy.linalg.solve_triangular`
without `lower=True`, so both substitutions read only the (zero) upper
triangle of `L` and collapse to divisions by `diag(L)`.  On the SPD system
`T = [[4, 2], [2, 10]]` (from `K = [[3, 2], [2, 9]]`, `sqrt_d = (1, 1)`,
which Cholesky-factorises successfully) the code returns `x = (1/4, 1/9)`
although `T·(1/4, 1/9) = (11/9, 29/18) ≠ (1, 1)` — so
`T·(e_c/sqrt_d) ≠ sqrt_d`, contradicting the claimed contract (and
algorithm 3.3 of GPML, which the docstring cites). -/
theorem C1_solve_not_inverse :
    cholOk (TcOf C1K C1d) ∧
      exactSolveVec (TcOf C1K C1d) C1d =
        (fun i => if i.val = 0 then 1 / 4 else 1 / 9) ∧
      matVec (TcOf C1K C1d) (exactSolveVec (TcOf C1K C1d) C1d) ≠ C1d := by
  have hx : exactSolveVec (TcOf C1K C1d) C1d =
      fun i => if i.val = 0 then 1 / 4 else 1 / 9 := by
    rw [exactSolveVec_eq]
    funext i
    fin_cases i
    · show C1d 0 / chol (TcOf C1K C1d) 0 0 / chol (TcOf C1K C1d) 0 0 = _
      rw [C1L00]
      norm_num [C1d]
    · show C1d 1 / chol (TcOf C1K C1d) 1 1 / chol (TcOf C1K C1d) 1 1 = _
      rw [C1L11]
      norm_num [C1d]
  refine ⟨C1ok, hx, ?_⟩
  rw [hx]
  intro hEq
  have h0 := congrFun hEq 0
  unfold matVec at h0
  rw [Fin.sum_univ_two, C1T00, C1T01] at h0
  norm_num [C1d] at h0

/-! ### Claim C2 -/

/-- C2: one Newton iteration of `fit` computes, from the solver output `e'`
and the previous iterate `f` (with `pi = softmax f`, `b = bMat`,
`c_correction = cMat`): `t3 = sum_c(c_correction) / max(sum_c(e_c), 1e-8)`
elementwise, `t4[:, c] = e_c * t3`, `a = b - c_correction + t4`, and the
new latent matrix `f = K · a`. -/
theorem C2_newton_update {n C : ℕ} (K : Fin (n + 1) → Fin (n + 1) → ℝ)
    (y f : Fin (n + 1) → Fin (C + 1) → ℝ) (e' : Fin (C + 1) → Fin (n + 1) → ℝ) :
    (∀ i, t3Of e' (cMat K e' (bMat (softmax f) f y)) i =
        (∑ c, cMat K e' (bMat (softmax f) f y) i c) /
          max (∑ c, e' c i) (1e-8 : ℝ)) ∧
      (∀ i c, t4Of e' (cMat K e' (bMat (softmax f) f y)) i c =
        e' c i * t3Of e' (cMat K e' (bMat (softmax f) f y)) i) ∧
      (∀ i c, stepA K y e' f i c =
        bMat (softmax f) f y i c - cMat K e' (bMat (softmax f) f y) i c +
          t4Of e' (cMat K e' (bMat (softmax f) f y)) i c) ∧
      (∀ i c, stepF K y e' f i c = ∑ j, K i j * stepA K y e' f j c) :=
  ⟨fun _ => rfl, fun _ _ => rfl, fun _ _ => rfl, fun _ _ => rfl⟩

/-! ### Claim C5 -/

/-- C5: every row of `predict_proba` is a non-negative vector summing
to 1 — each row is the average over the `n_samples = m+1` drawn latent
rows of their softmax, and every softmax row sums to 1. -/
theorem C5_predict_proba_rows {n C m q : ℕ}
    (y pi : Fin (n + 1) → Fin (C + 1) → ℝ) (e : Fin (C + 1) → Fin (n + 1) → ℝ)
    (kstarOf : Fin (q + 1) → Fin (n + 1) → ℝ) (kssOf : Fin (q + 1) → ℝ)
    (rng : Fin (q + 1) → (Fin (C + 1) → ℝ) → (Fin (C + 1) → Fin (C + 1) → ℝ) →
      Fin (m + 1) → Fin (C + 1) → ℝ) (qi : Fin (q + 1)) :
    (∑ c, predictProba y pi e kstarOf kssOf rng qi c = 1) ∧
      ∀ c, 0 ≤ predictProba y pi e kstarOf kssOf rng qi c := by
  constructor
  · show (∑ c, predictKStar y pi e (kstarOf qi) (kssOf qi) (rng qi) c) = 1
    unfold predictKStar
    rw [← Finset.sum_div, Finset.sum_comm]
    have h1 : ∀ s : Fin (m + 1),
        (∑ c, softmaxRow (rng qi (muOf y pi (kstarOf qi))
          (SigmaOf e (kstarOf qi) (kssOf qi)) s) c) = 1 :=
      fun s => softmaxRow_sum _
    rw [Finset.sum_congr rfl fun s _ => h1 s]
    rw [Finset.sum_const, Finset.card_univ, Fintype.card_fin, nsmul_eq_mul, mul_one]
    push_cast
    exact div_self (by positivity)
  · intro c
    show 0 ≤ predictKStar y pi e (kstarOf qi) (kssOf qi) (rng qi) c
    unfold predictKStar
    apply div_nonneg
    · exact Finset.sum_nonneg fun s _ => (softmaxRow_pos _ c).le
    · positivity

/-! ### Claim C10 -/

/-- C10: the predictive engine's elementwise division (line 250) uses the
denominator `max(sum_c(e_c), 1e-8)` — `floorDenom`, the very guard the
fitting step's `t3` uses (line 219) — and that denominator is bounded
below by `1e-8 > 0` for *every* accumulated sum, so prediction never
divides by zero even when every `e_c` vanishes. -/
theorem C10_floor_guard {n C : ℕ} (e : Fin C → Fin n → ℝ) (c : Fin C)
    (kstar : Fin n → ℝ) :
    (predT2 e c kstar = fun i => predB e c kstar i / floorDenom (∑ c', e c' i)) ∧
      (∀ cc : Fin n → Fin C → ℝ, ∀ i, t3Of e cc i =
        (∑ c', cc i c') / floorDenom (∑ c', e c' i)) ∧
      (∀ s : ℝ, floorDenom s = max s (1e-8 : ℝ) ∧ (1e-8 : ℝ) ≤ floorDenom s ∧
        0 < floorDenom s) :=
  ⟨rfl, fun _ _ => rfl, fun s => ⟨rfl, le_max_right s eps, floorDenom_pos s⟩⟩

/-- C9, witness for the amended theorem at the fresh-model concrete run. -/
theorem C9_K_construction_witness :
    stK run1 = fun i j => KX1 i j + (0 : ℝ) ^ 2 * (if i = j then 1 else 0) := by
  obtain ⟨L, h⟩ := run1_ok
  have hfit : fit "exact" 0 1 cgX 1 KX1 y1 none none = .ok ⟨K1, f1, piH, e3, [L], none⟩ := h
  have hc := C9_K_construction "exact" 0 1 cgX 1 KX1 y1 none none _ hfit
  rw [show stK run1 = K1 from by rw [h]; rfl]
  exact hc

end GP
